import Mathlib

/-!
Verification of the validator-lifecycle and reward-allocation engine.

Shallow embedding of the reward allocation engine
(`x/distribution/keeper/allocation.go`, three successive variants of
`AllocateTokens` and its per-validator helpers) and of the validator
lifecycle manager (`x/staking/keeper/validator.go`).

Modelling conventions:

* `LegacyDec` (the SDK's 18-decimal fixed-point type) is embedded as `Int`,
  holding the number of `10^-18` units.  `MulTruncate`/`QuoTruncate` use
  `Int.tdiv`, which truncates toward zero exactly like Go's `big.Int.Quo`.
* `DecCoins` and `Coins` are embedded extensionally as denomination-indexed
  amount vectors `Fin nd → Int` (`DecCoins` in `10^-18` units, `Coins` in
  whole tokens).  The SDK keeps them as sorted zero-stripped lists; all
  operations used here are pointwise, so the vector view is the
  extensional semantics of that representation.
* Bank operations (`SendCoinsFromModuleToModule`,
  `SendCoinsFromModuleToAccount`, `BurnCoins`) are the external bank
  capability; they are modelled as always-succeeding balance moves between
  the tracked ledgers (fee collector, distribution module, beneficiary
  account, cumulative burned total).
* Go `panic` (and the fatal propagation of a failed primary fee transfer)
  is modelled by an `Option` result: `none` means the block-level operation
  aborts fatally and no mutated state is committed.
-/

namespace CosmosSdk

/-! ## Fixed-point decimal arithmetic (`cosmossdk.io/math.LegacyDec`) -/

/-- One whole token in `10^-18` units: the `LegacyDec` scaling factor. -/
def decUnit : Int := 10 ^ 18

/-- `LegacyDec.MulTruncate`: multiply two scaled decimals and truncate the
result toward zero (Go `big.Int.Quo` semantics, hence `Int.tdiv`). -/
def decMulTruncate (a b : Int) : Int := Int.tdiv (a * b) decUnit

/-- `LegacyDec.QuoTruncate`: divide two scaled decimals, truncating toward
zero. -/
def decQuoTruncate (a b : Int) : Int := Int.tdiv (a * decUnit) b

/-- `LegacyDec.TruncateInt`: the whole-token part of a scaled decimal. -/
def decTruncateInt (a : Int) : Int := Int.tdiv a decUnit

/-- `math.LegacyNewDec`: embed an integer as a scaled decimal. -/
def intToDec (n : Int) : Int := n * decUnit

/-! ## Coin vectors -/

/-- `sdk.DecCoins`, extensionally: amount (in `10^-18` units) per
denomination. -/
def DecCoins (nd : Nat) : Type := Fin nd → Int

/-- `sdk.Coins`, extensionally: whole-token amount per denomination. -/
def Coins (nd : Nat) : Type := Fin nd → Int

instance (nd : Nat) : CommRing (DecCoins nd) := Pi.commRing

instance (nd : Nat) : CommRing (Coins nd) := Pi.commRing

/-- `DecCoins.MulDecTruncate`: pointwise truncating multiplication by a
scaled decimal. -/
def mulDecTruncateC {nd : Nat} (a : DecCoins nd) (r : Int) : DecCoins nd :=
  fun d => decMulTruncate (a d) r

/-- `DecCoins.IsAnyNegative`: some denomination has a negative amount. -/
def anyNegC {nd : Nat} (a : DecCoins nd) : Bool :=
  decide (∃ d, a d < 0)

/-- `DecCoins.Sub` of the repository's coin library (not under `src/`):
`SafeSub` followed by a panic when any resulting amount is negative.
Modelled from the spec: a negative computed amount is an unrecoverable
invariant violation that halts block processing (spec §7(b)), matching the
upstream `DecCoins.Sub` panic. `none` models that fatal abort. -/
def subC {nd : Nat} (a b : DecCoins nd) : Option (DecCoins nd) :=
  let diff : DecCoins nd := fun d => a d - b d
  if anyNegC diff then none else some diff

/-- `Keeper.DecCoins2Coins` (`allocation.go`): truncate each decimal amount
to whole tokens. -/
def DecCoins2Coins {nd : Nat} (dcs : DecCoins nd) : Coins nd :=
  fun d => decTruncateInt (dcs d)

/-- `sdk.NewDecCoinsFromCoins`: embed whole-token coins as decimal coins. -/
def NewDecCoinsFromCoins {nd : Nat} (c : Coins nd) : DecCoins nd :=
  fun d => intToDec (c d)

/-! ## Distribution parameters and state -/

/-- The `VoterRewards` distribution parameter: the configured voter-reward
ratio (a scaled decimal) and the optional beneficiary account
(`BeneficiaryAddr = ""` in Go is `none`; a configured address is assumed
well-formed, since a malformed one merely panics before any transfer). -/
structure VoterRewards where
  ratio : Int
  beneficiaryAddr : Option Nat
  deriving DecidableEq

/-- Distribution `types.Params` as consumed by the allocation engine.
`burnValidators` holds the operator identities listed in the burn list
(`isBurnValidator` string matching reduces to membership once operator
addresses are taken as canonical identities). -/
structure DistParams (nv : Nat) where
  communityTax : Int
  voterRewards : VoterRewards
  burnValidators : List (Fin nv)
  deriving DecidableEq

/-- `Keeper.isBurnValidator`: is the validator's operator address in the
configured burn list. -/
def isBurnValidator {nv : Nat} (v : Fin nv) (burnValidators : List (Fin nv)) : Bool :=
  burnValidators.contains v

/-- The ledger state touched by the allocation engine.  `feeCollector` and
`distModule` are the bank balances of the fee-collector and distribution
module accounts; `burned` and `beneficiary` accumulate the coins destroyed
by `BurnCoins` and the coins sent by `SendCoinsFromModuleToAccount` to the
configured beneficiary. `current`/`outstanding` are the per-validator
reward accumulators and `communityPool` is `FeePool.CommunityPool`. -/
structure DistState (nd nv : Nat) where
  feeCollector : Coins nd
  distModule : Coins nd
  current : Fin nv → DecCoins nd
  outstanding : Fin nv → DecCoins nd
  communityPool : DecCoins nd
  burned : Coins nd
  beneficiary : Coins nd

/-- `BankKeeper.SendCoinsFromModuleToModule` from the fee collector to the
distribution module account. -/
def sendFeeToDist {nd nv : Nat} (s : DistState nd nv) (amt : Coins nd) : DistState nd nv :=
  { s with feeCollector := s.feeCollector - amt, distModule := s.distModule + amt }

/-- `BankKeeper.BurnCoins` from the distribution module account. -/
def burnFromModule {nd nv : Nat} (s : DistState nd nv) (amt : Coins nd) : DistState nd nv :=
  { s with distModule := s.distModule - amt, burned := s.burned + amt }

/-- `BankKeeper.SendCoinsFromModuleToAccount` to the beneficiary account. -/
def sendToBeneficiary {nd nv : Nat} (s : DistState nd nv) (amt : Coins nd) : DistState nd nv :=
  { s with distModule := s.distModule - amt, beneficiary := s.beneficiary + amt }

/-- `Keeper.AllocateTokensToValidator`: add `tokens` to the validator's
`CurrentRewards` and `OutstandingRewards` accumulators. -/
def AllocateTokensToValidator {nd nv : Nat} (v : Fin nv) (tokens : DecCoins nd)
    (s : DistState nd nv) : DistState nd nv :=
  { s with
    current := fun v' => if v' = v then s.current v' + tokens else s.current v'
    outstanding := fun v' => if v' = v then s.outstanding v' + tokens else s.outstanding v' }

/-! ## Per-validator reward split, first variant -/

/-- `Keeper.burnOrAllocateTokensToValidator` (first variant of
`allocation.go`): split `reward` into a truncated voter portion and the
miner remainder; send the voter coins to the configured beneficiary or burn
them; then burn the miner remainder for burn-list validators or credit it
to the validator's reward accumulators.  A negative miner remainder panics
(`none`); the explicit `IsAnyNegative` panic of line 73 is kept after the
subtraction exactly as in the source. -/
def burnOrAllocateTokensToValidator {nd nv : Nat} (p : DistParams nv) (v : Fin nv)
    (reward : DecCoins nd) (s : DistState nd nv) : Option (DistState nd nv) :=
  let voterReward := mulDecTruncateC reward p.voterRewards.ratio
  match subC reward voterReward with
  | none => none
  | some minerReward =>
    let voterCoins := DecCoins2Coins voterReward
    if anyNegC minerReward then none
    else
      let s1 :=
        match p.voterRewards.beneficiaryAddr with
        | some _ => sendToBeneficiary s voterCoins
        | none => burnFromModule s voterCoins
      if isBurnValidator v p.burnValidators then
        some (burnFromModule s1 (DecCoins2Coins minerReward))
      else
        some (AllocateTokensToValidator v minerReward s1)

/-- `Keeper.allocateTokensToBeneficiaries` (second variant of
`allocation.go`): the voter portion is computed but retained in the
distribution module (only logged); a negative miner remainder at the
explicit check is logged and skipped (state returned unchanged); burn-list
validators have the *entire* reward burned, others are credited the miner
remainder. -/
def allocateTokensToBeneficiaries {nd nv : Nat} (p : DistParams nv) (v : Fin nv)
    (reward : DecCoins nd) (s : DistState nd nv) : Option (DistState nd nv) :=
  let voterReward := mulDecTruncateC reward p.voterRewards.ratio
  match subC reward voterReward with
  | none => none
  | some minerReward =>
    if anyNegC minerReward then some s
    else
      if isBurnValidator v p.burnValidators then
        some (burnFromModule s (DecCoins2Coins reward))
      else
        some (AllocateTokensToValidator v minerReward s)

/-- `Keeper.allocateTokensToBeneficiaries` (third variant of
`allocation.go`): no voter split at this level (it was deducted before the
fee transfer); burn-list validators have the reward burned, others are
credited the full reward. -/
def allocateTokensToBeneficiariesV3 {nd nv : Nat} (p : DistParams nv) (v : Fin nv)
    (reward : DecCoins nd) (s : DistState nd nv) : Option (DistState nd nv) :=
  if isBurnValidator v p.burnValidators then
    some (burnFromModule s (DecCoins2Coins reward))
  else
    some (AllocateTokensToValidator v reward s)

/-! ## The per-block allocation loop -/

/-- `powerFraction` of a vote: `LegacyNewDec(votePower).QuoTruncate
(LegacyNewDec(totalPreviousPower))`. -/
def powerFractionOf (power totalPower : Int) : Int :=
  decQuoTruncate (intToDec power) (intToDec totalPower)

/-- The truncated per-vote reward `feeMultiplier.MulDecTruncate
(powerFraction)`. -/
def rewardAt {nd : Nat} (feeMultiplier : DecCoins nd) (totalPower power : Int) : DecCoins nd :=
  mulDecTruncateC feeMultiplier (powerFractionOf power totalPower)

/-- The `for _, vote := range bondedVotes` loop shared verbatim by the
three `AllocateTokens` variants, parameterised by the per-validator
handler: compute the truncated reward for each vote, hand it to the
handler, and subtract it from `remaining` (a `DecCoins.Sub`, hence fatal
if any coin would go negative). Returns the final state and remainder. -/
def allocLoop {nd nv : Nat}
    (perVote : Fin nv → DecCoins nd → DistState nd nv → Option (DistState nd nv))
    (feeMultiplier : DecCoins nd) (totalPower : Int) :
    List (Fin nv × Int) → DistState nd nv → DecCoins nd →
    Option (DistState nd nv × DecCoins nd)
  | [], s, remaining => some (s, remaining)
  | (v, power) :: rest, s, remaining =>
    let reward := rewardAt feeMultiplier totalPower power
    match perVote v reward s with
    | none => none
    | some s1 =>
      match subC remaining reward with
      | none => none
      | some rem1 => allocLoop perVote feeMultiplier totalPower rest s1 rem1

/-- `Keeper.AllocateTokens`, first variant (lines 13–62 of
`allocation.go`): move the whole fee-collector balance to the distribution
module; with zero previous power, add everything to the community pool and
return; otherwise run the allocation loop with
`burnOrAllocateTokensToValidator` and add the remainder to the community
pool. -/
def AllocateTokensV1 {nd nv : Nat} (p : DistParams nv) (totalPreviousPower : Int)
    (bondedVotes : List (Fin nv × Int)) (s : DistState nd nv) : Option (DistState nd nv) :=
  let feesCollectedInt := s.feeCollector
  let feesCollected := NewDecCoinsFromCoins feesCollectedInt
  let s := sendFeeToDist s feesCollectedInt
  if totalPreviousPower = 0 then
    some { s with communityPool := s.communityPool + feesCollected }
  else
    let voteMultiplier := decUnit - p.communityTax
    let feeMultiplier := mulDecTruncateC feesCollected voteMultiplier
    match allocLoop (burnOrAllocateTokensToValidator p) feeMultiplier totalPreviousPower
        bondedVotes s feesCollected with
    | none => none
    | some (s1, remaining) =>
      some { s1 with communityPool := s1.communityPool + remaining }

/-- `Keeper.AllocateTokens`, second variant (lines 174–223): identical to
the first except each vote is handled by `allocateTokensToBeneficiaries`. -/
def AllocateTokensV2 {nd nv : Nat} (p : DistParams nv) (totalPreviousPower : Int)
    (bondedVotes : List (Fin nv × Int)) (s : DistState nd nv) : Option (DistState nd nv) :=
  let feesCollectedInt := s.feeCollector
  let feesCollected := NewDecCoinsFromCoins feesCollectedInt
  let s := sendFeeToDist s feesCollectedInt
  if totalPreviousPower = 0 then
    some { s with communityPool := s.communityPool + feesCollected }
  else
    let voteMultiplier := decUnit - p.communityTax
    let feeMultiplier := mulDecTruncateC feesCollected voteMultiplier
    match allocLoop (allocateTokensToBeneficiaries p) feeMultiplier totalPreviousPower
        bondedVotes s feesCollected with
    | none => none
    | some (s1, remaining) =>
      some { s1 with communityPool := s1.communityPool + remaining }

/-- `Keeper.AllocateTokens`, third variant (lines 312–370): when the voter
ratio is nonzero only the `(1 - ratio)` fraction of the fee-collector
balance is collected and transferred (the rest stays in the fee
collector); the zero-power branch and the loop structure are as before,
with `allocateTokensToBeneficiariesV3` handling each vote. -/
def AllocateTokensV3 {nd nv : Nat} (p : DistParams nv) (totalPreviousPower : Int)
    (bondedVotes : List (Fin nv × Int)) (s : DistState nd nv) : Option (DistState nd nv) :=
  let ratio := p.voterRewards.ratio
  let balance := s.feeCollector
  let feesCollectedInt :=
    if ratio = 0 then balance
    else DecCoins2Coins (mulDecTruncateC (NewDecCoinsFromCoins balance) (decUnit - ratio))
  let feesCollected := NewDecCoinsFromCoins feesCollectedInt
  let s := sendFeeToDist s feesCollectedInt
  if totalPreviousPower = 0 then
    some { s with communityPool := s.communityPool + feesCollected }
  else
    let voteMultiplier := decUnit - p.communityTax
    let feeMultiplier := mulDecTruncateC feesCollected voteMultiplier
    match allocLoop (allocateTokensToBeneficiariesV3 p) feeMultiplier totalPreviousPower
        bondedVotes s feesCollected with
    | none => none
    | some (s1, remaining) =>
      some { s1 with communityPool := s1.communityPool + remaining }

end CosmosSdk

namespace CosmosSdk

/-! ## Derived per-vote quantities (named so theorems can speak about them) -/

/-- The voter-reward portion of a reward: `reward.MulDecTruncate(vr.Ratio)`. -/
def voterRewardOf {nd nv : Nat} (p : DistParams nv) (reward : DecCoins nd) : DecCoins nd :=
  mulDecTruncateC reward p.voterRewards.ratio

/-- The miner-reward remainder of a reward: `reward.Sub(voterReward)` as a
plain pointwise difference (the value the subtraction produces when it does
not abort). -/
def minerRewardOf {nd nv : Nat} (p : DistParams nv) (reward : DecCoins nd) : DecCoins nd :=
  reward - voterRewardOf p reward

/-- Sum of all validators' `OutstandingRewards`. -/
def sumOutstanding {nd nv : Nat} (s : DistState nd nv) : DecCoins nd :=
  Finset.univ.sum fun v => s.outstanding v

/-- Total voter-reward decimal amount over a vote list. -/
def totalVoterReward {nd nv : Nat} (p : DistParams nv) (feeMultiplier : DecCoins nd)
    (totalPower : Int) : List (Fin nv × Int) → DecCoins nd
  | [] => 0
  | (_, power) :: rest =>
    voterRewardOf p (rewardAt feeMultiplier totalPower power)
      + totalVoterReward p feeMultiplier totalPower rest

/-- Total miner-reward decimal amount of burn-list validators over a vote
list. -/
def totalBurnedMiner {nd nv : Nat} (p : DistParams nv) (feeMultiplier : DecCoins nd)
    (totalPower : Int) : List (Fin nv × Int) → DecCoins nd
  | [] => 0
  | (v, power) :: rest =>
    (if isBurnValidator v p.burnValidators then
        minerRewardOf p (rewardAt feeMultiplier totalPower power) else 0)
      + totalBurnedMiner p feeMultiplier totalPower rest

/-! ## Basic lemmas about the embedded operations -/

lemma subC_eq_some {nd : Nat} {a b c : DecCoins nd} (h : subC a b = some c) :
    c = a - b ∧ anyNegC (a - b) = false := by
  have h' : (if anyNegC (a - b) then none else some (a - b)) = some c := h
  by_cases hn : anyNegC (a - b) = true
  · rw [if_pos hn] at h'; cases h'
  · rw [if_neg hn] at h'
    injection h' with h''
    exact ⟨h''.symm, Bool.not_eq_true _ ▸ hn⟩

@[simp] lemma sendFeeToDist_outstanding {nd nv : Nat} (s : DistState nd nv) (c : Coins nd) :
    (sendFeeToDist s c).outstanding = s.outstanding := rfl

@[simp] lemma sendFeeToDist_current {nd nv : Nat} (s : DistState nd nv) (c : Coins nd) :
    (sendFeeToDist s c).current = s.current := rfl

@[simp] lemma sendFeeToDist_communityPool {nd nv : Nat} (s : DistState nd nv) (c : Coins nd) :
    (sendFeeToDist s c).communityPool = s.communityPool := rfl

@[simp] lemma sendFeeToDist_burned {nd nv : Nat} (s : DistState nd nv) (c : Coins nd) :
    (sendFeeToDist s c).burned = s.burned := rfl

@[simp] lemma sendFeeToDist_beneficiary {nd nv : Nat} (s : DistState nd nv) (c : Coins nd) :
    (sendFeeToDist s c).beneficiary = s.beneficiary := rfl

@[simp] lemma burnFromModule_outstanding {nd nv : Nat} (s : DistState nd nv) (c : Coins nd) :
    (burnFromModule s c).outstanding = s.outstanding := rfl

@[simp] lemma burnFromModule_current {nd nv : Nat} (s : DistState nd nv) (c : Coins nd) :
    (burnFromModule s c).current = s.current := rfl

@[simp] lemma burnFromModule_communityPool {nd nv : Nat} (s : DistState nd nv) (c : Coins nd) :
    (burnFromModule s c).communityPool = s.communityPool := rfl

@[simp] lemma burnFromModule_burned {nd nv : Nat} (s : DistState nd nv) (c : Coins nd) :
    (burnFromModule s c).burned = s.burned + c := rfl

@[simp] lemma burnFromModule_beneficiary {nd nv : Nat} (s : DistState nd nv) (c : Coins nd) :
    (burnFromModule s c).beneficiary = s.beneficiary := rfl

@[simp] lemma sendToBeneficiary_outstanding {nd nv : Nat} (s : DistState nd nv) (c : Coins nd) :
    (sendToBeneficiary s c).outstanding = s.outstanding := rfl

@[simp] lemma sendToBeneficiary_current {nd nv : Nat} (s : DistState nd nv) (c : Coins nd) :
    (sendToBeneficiary s c).current = s.current := rfl

@[simp] lemma sendToBeneficiary_communityPool {nd nv : Nat} (s : DistState nd nv) (c : Coins nd) :
    (sendToBeneficiary s c).communityPool = s.communityPool := rfl

@[simp] lemma sendToBeneficiary_burned {nd nv : Nat} (s : DistState nd nv) (c : Coins nd) :
    (sendToBeneficiary s c).burned = s.burned := rfl

@[simp] lemma sendToBeneficiary_beneficiary {nd nv : Nat} (s : DistState nd nv) (c : Coins nd) :
    (sendToBeneficiary s c).beneficiary = s.beneficiary + c := rfl

@[simp] lemma allocToVal_communityPool {nd nv : Nat} (v : Fin nv) (t : DecCoins nd)
    (s : DistState nd nv) : (AllocateTokensToValidator v t s).communityPool = s.communityPool := rfl

@[simp] lemma allocToVal_burned {nd nv : Nat} (v : Fin nv) (t : DecCoins nd)
    (s : DistState nd nv) : (AllocateTokensToValidator v t s).burned = s.burned := rfl

@[simp] lemma allocToVal_beneficiary {nd nv : Nat} (v : Fin nv) (t : DecCoins nd)
    (s : DistState nd nv) : (AllocateTokensToValidator v t s).beneficiary = s.beneficiary := rfl

lemma sumOutstanding_allocToVal {nd nv : Nat} (v : Fin nv) (t : DecCoins nd)
    (s : DistState nd nv) :
    sumOutstanding (AllocateTokensToValidator v t s) = sumOutstanding s + t := by
  unfold sumOutstanding AllocateTokensToValidator
  simp only
  have hcong : ∀ v' ∈ Finset.univ,
      (if v' = v then s.outstanding v' + t else s.outstanding v')
        = s.outstanding v' + (if v' = v then t else 0) := by
    intro v' _; split <;> simp
  rw [Finset.sum_congr rfl hcong, Finset.sum_add_distrib,
    Finset.sum_ite_eq' Finset.univ v fun _ => t]
  simp

lemma sumOutstanding_burnFromModule {nd nv : Nat} (s : DistState nd nv) (c : Coins nd) :
    sumOutstanding (burnFromModule s c) = sumOutstanding s := rfl

lemma sumOutstanding_sendToBeneficiary {nd nv : Nat} (s : DistState nd nv) (c : Coins nd) :
    sumOutstanding (sendToBeneficiary s c) = sumOutstanding s := rfl

lemma sumOutstanding_sendFeeToDist {nd nv : Nat} (s : DistState nd nv) (c : Coins nd) :
    sumOutstanding (sendFeeToDist s c) = sumOutstanding s := rfl

end CosmosSdk

namespace CosmosSdk

/-- Effect of the first-variant per-validator split on the outstanding-sum
and the community pool: the sum gains the miner remainder unless the
validator is burn-listed, and the pool is untouched. -/
lemma burnOrAllocate_sum {nd nv : Nat} (p : DistParams nv) (v : Fin nv) (r : DecCoins nd)
    (s s1 : DistState nd nv) (h : burnOrAllocateTokensToValidator p v r s = some s1) :
    sumOutstanding s1 = sumOutstanding s +
      (if isBurnValidator v p.burnValidators then 0 else minerRewardOf p r)
    ∧ s1.communityPool = s.communityPool := by
  unfold burnOrAllocateTokensToValidator at h
  simp only [] at h
  cases hsub : subC r (mulDecTruncateC r p.voterRewards.ratio) with
  | none => rw [hsub] at h; cases h
  | some miner =>
    rw [hsub] at h
    simp only [] at h
    obtain ⟨hmv, hneg⟩ := subC_eq_some hsub
    have hmv' : miner = minerRewardOf p r := hmv
    subst hmv'
    have hneg' : anyNegC (minerRewardOf p r) = false := hneg
    rw [if_neg (by simp [hneg'])] at h
    cases hben : p.voterRewards.beneficiaryAddr with
    | some b =>
      rw [hben] at h
      simp only [] at h
      by_cases hburn : isBurnValidator v p.burnValidators = true
      · rw [if_pos hburn] at h
        injection h with h1
        rw [← h1, if_pos hburn]
        constructor
        · rw [sumOutstanding_burnFromModule, sumOutstanding_sendToBeneficiary, add_zero]
        · simp
      · rw [if_neg hburn] at h
        injection h with h1
        rw [← h1, if_neg hburn]
        constructor
        · rw [sumOutstanding_allocToVal, sumOutstanding_sendToBeneficiary]
        · simp
    | none =>
      rw [hben] at h
      simp only [] at h
      by_cases hburn : isBurnValidator v p.burnValidators = true
      · rw [if_pos hburn] at h
        injection h with h1
        rw [← h1, if_pos hburn]
        constructor
        · rw [sumOutstanding_burnFromModule, sumOutstanding_burnFromModule, add_zero]
        · simp
      · rw [if_neg hburn] at h
        injection h with h1
        rw [← h1, if_neg hburn]
        constructor
        · rw [sumOutstanding_allocToVal, sumOutstanding_burnFromModule]
        · simp

/-- Accounting invariant of the first-variant allocation loop: the
outstanding-sum plus the running remainder decreases by exactly the voter
portions and the burn-list miner portions; the community pool is
untouched inside the loop. -/
lemma allocLoop_v1_sum {nd nv : Nat} (p : DistParams nv) (fm : DecCoins nd) (tp : Int) :
    ∀ (votes : List (Fin nv × Int)) (s : DistState nd nv) (rem : DecCoins nd)
      (s' : DistState nd nv) (rem' : DecCoins nd),
      allocLoop (burnOrAllocateTokensToValidator p) fm tp votes s rem = some (s', rem') →
      sumOutstanding s' + rem' + totalVoterReward p fm tp votes + totalBurnedMiner p fm tp votes
          = sumOutstanding s + rem
        ∧ s'.communityPool = s.communityPool := by
  intro votes
  induction votes with
  | nil =>
    intro s rem s' rem' h
    unfold allocLoop at h
    injection h with h1
    injection h1 with hs hr
    subst hs; subst hr
    refine ⟨?_, rfl⟩
    simp [totalVoterReward, totalBurnedMiner]
  | cons hd rest ih =>
    obtain ⟨v, power⟩ := hd
    intro s rem s' rem' h
    unfold allocLoop at h
    simp only [] at h
    cases hpv : burnOrAllocateTokensToValidator p v (rewardAt fm tp power) s with
    | none => rw [hpv] at h; cases h
    | some s1 =>
      rw [hpv] at h
      simp only [] at h
      cases hsub : subC rem (rewardAt fm tp power) with
      | none => rw [hsub] at h; cases h
      | some rem1 =>
        rw [hsub] at h
        simp only [] at h
        obtain ⟨hrem1, _⟩ := subC_eq_some hsub
        obtain ⟨hsum1, hpool1⟩ := burnOrAllocate_sum p v (rewardAt fm tp power) s s1 hpv
        obtain ⟨hsum2, hpool2⟩ := ih s1 rem1 s' rem' h
        constructor
        · rw [totalVoterReward, totalBurnedMiner]
          subst hrem1
          rw [hsum1] at hsum2
          by_cases hburn : isBurnValidator v p.burnValidators = true
          · rw [if_pos hburn] at hsum2 ⊢
            rw [minerRewardOf] at *
            rw [← sub_eq_zero] at hsum2 ⊢
            rw [← hsum2]
            abel
          · rw [if_neg hburn] at hsum2 ⊢
            rw [minerRewardOf] at *
            rw [zero_add]
            rw [← sub_eq_zero] at hsum2 ⊢
            rw [← hsum2]
            abel
        · rw [hpool2, hpool1]

end CosmosSdk

namespace CosmosSdk

/-- The amount actually collected from the fee collector by the third
`AllocateTokens` variant: the full balance when the voter ratio is zero,
otherwise its truncated `(1 - ratio)` fraction. -/
def v3FeesCollectedInt {nd nv : Nat} (p : DistParams nv) (s : DistState nd nv) : Coins nd :=
  if p.voterRewards.ratio = 0 then s.feeCollector
  else DecCoins2Coins (mulDecTruncateC (NewDecCoinsFromCoins s.feeCollector)
    (decUnit - p.voterRewards.ratio))

/-- C1. The claim asserts `Σ OutstandingRewards + CommunityPool` grows by
exactly the collected fees for *every* configuration.  At community tax
0.02, voter ratio 0.10, no beneficiary, empty burn list and 1000 tokens of
fees, the ledger sum grows by 902 tokens, not 1000: the 98-token voter
portion is burned out of the ledger.  This closed computation refutes the
claim as stated. -/
theorem C1_conservation_counterexample :
    ((AllocateTokensV1 (⟨2 * 10 ^ 16, ⟨10 ^ 17, none⟩, []⟩ : DistParams 1) 100
          [((0 : Fin 1), (100 : Int))]
          (⟨fun _ => 1000, fun _ => 0, fun _ _ => 0, fun _ _ => 0, fun _ => 0, fun _ => 0,
            fun _ => 0⟩ : DistState 1 1)).map
        fun s1 => sumOutstanding s1 0 + s1.communityPool 0) = some (902 * decUnit)
    ∧ (0 : Int) + 0 + 1000 * decUnit = 1000 * decUnit
    ∧ (902 * decUnit : Int) ≠ 1000 * decUnit := by
  refine ⟨by decide, by decide, by decide⟩

/-- C1 (amended).  Exact accounting law of `AllocateTokens` (first
variant): with zero previous power the ledger sum grows by exactly the
collected fees; otherwise it grows by the collected fees minus the total
voter-reward portions (burned or forwarded out of the ledger) and minus
the burn-list validators' miner portions.  Conservation as originally
claimed holds exactly when those two totals are zero. -/
theorem C1_conservation_amended {nd nv : Nat} (p : DistParams nv) (tp : Int)
    (votes : List (Fin nv × Int)) (s s' : DistState nd nv)
    (h : AllocateTokensV1 p tp votes s = some s') :
    (tp = 0 → sumOutstanding s' + s'.communityPool
        = sumOutstanding s + s.communityPool + NewDecCoinsFromCoins s.feeCollector)
    ∧ (tp ≠ 0 → sumOutstanding s' + s'.communityPool
          + totalVoterReward p
              (mulDecTruncateC (NewDecCoinsFromCoins s.feeCollector) (decUnit - p.communityTax))
              tp votes
          + totalBurnedMiner p
              (mulDecTruncateC (NewDecCoinsFromCoins s.feeCollector) (decUnit - p.communityTax))
              tp votes
        = sumOutstanding s + s.communityPool + NewDecCoinsFromCoins s.feeCollector) := by
  unfold AllocateTokensV1 at h
  simp only [] at h
  by_cases htp : tp = 0
  · rw [if_pos htp] at h
    injection h with h1
    refine ⟨fun _ => ?_, fun hne => absurd htp hne⟩
    rw [← h1]
    show sumOutstanding (sendFeeToDist s s.feeCollector) +
        ((sendFeeToDist s s.feeCollector).communityPool + NewDecCoinsFromCoins s.feeCollector) = _
    rw [sumOutstanding_sendFeeToDist, sendFeeToDist_communityPool, add_assoc]
  · rw [if_neg htp] at h
    cases hloop : allocLoop (burnOrAllocateTokensToValidator p)
        (mulDecTruncateC (NewDecCoinsFromCoins s.feeCollector) (decUnit - p.communityTax)) tp
        votes (sendFeeToDist s s.feeCollector) (NewDecCoinsFromCoins s.feeCollector) with
    | none => rw [hloop] at h; cases h
    | some pr =>
      obtain ⟨s1, rem⟩ := pr
      rw [hloop] at h
      simp only [] at h
      injection h with h1
      obtain ⟨hsum, hpool⟩ := allocLoop_v1_sum p _ tp votes _ _ s1 rem hloop
      rw [sumOutstanding_sendFeeToDist] at hsum
      rw [sendFeeToDist_communityPool] at hpool
      refine ⟨fun heq => absurd heq htp, fun _ => ?_⟩
      rw [← h1]
      show sumOutstanding s1 + (s1.communityPool + rem) + _ + _ = _
      rw [hpool]
      rw [← sub_eq_zero] at hsum ⊢
      rw [← hsum]
      abel

/-- C1 witness: the amended accounting law evaluated at the concrete
scenario of the counterexample. -/
def c1S0 : DistState 1 1 :=
  ⟨fun _ => 1000, fun _ => 0, fun _ _ => 0, fun _ _ => 0, fun _ => 0, fun _ => 0, fun _ => 0⟩

/-- Parameters for the C1 witness run. -/
def c1P : DistParams 1 := ⟨2 * 10 ^ 16, ⟨10 ^ 17, none⟩, []⟩

/-- Result state of the C1 witness run. -/
def c1Res : DistState 1 1 := (AllocateTokensV1 c1P 100 [(0, 100)] c1S0).getD c1S0

/-- Witness for `C1_conservation_amended` at a concrete input. -/
theorem C1_conservation_amended_witness :
    (100 : Int) ≠ 0 ∧
    sumOutstanding c1Res + c1Res.communityPool
        + totalVoterReward c1P
            (mulDecTruncateC (NewDecCoinsFromCoins c1S0.feeCollector) (decUnit - c1P.communityTax))
            100 [(0, 100)]
        + totalBurnedMiner c1P
            (mulDecTruncateC (NewDecCoinsFromCoins c1S0.feeCollector) (decUnit - c1P.communityTax))
            100 [(0, 100)]
      = sumOutstanding c1S0 + c1S0.communityPool + NewDecCoinsFromCoins c1S0.feeCollector :=
  ⟨by decide, (C1_conservation_amended c1P 100 [(0, 100)] c1S0 c1Res rfl).2 (by decide)⟩

/-- C5.  The concrete scenario of the spec: validator A with all 100 power,
community tax 0.02, voter ratio 0.10, no beneficiary, empty burn list,
1000 tokens of fees: 98 tokens burned as the voter share (nothing sent to
a beneficiary), 882 tokens credited to A's outstanding rewards, and 20
tokens added to the community pool (the truncation remainder is zero
here). -/
theorem C5_scenario :
    ((AllocateTokensV1 (⟨2 * 10 ^ 16, ⟨10 ^ 17, none⟩, []⟩ : DistParams 1) 100
          [((0 : Fin 1), (100 : Int))]
          (⟨fun _ => 1000, fun _ => 0, fun _ _ => 0, fun _ _ => 0, fun _ => 0, fun _ => 0,
            fun _ => 0⟩ : DistState 1 1)).map
        fun s1 => (s1.burned 0, s1.outstanding 0 0, s1.communityPool 0, s1.beneficiary 0)) =
      some (98, 882 * decUnit, 20 * decUnit, 0) := by
  decide

/-- C6.  With `totalPreviousPower = 0` every `AllocateTokens` variant adds
100% of the collected fees to the community pool and performs no
per-validator crediting, burning or beneficiary transfer.  In the first
two variants the collected fees are the whole fee-collector balance; in
the third variant they are the `(1 - ratio)` fraction actually collected
(`v3FeesCollectedInt`). -/
theorem C6_zero_power {nd nv : Nat} (p : DistParams nv) (votes : List (Fin nv × Int))
    (s : DistState nd nv) :
    ((AllocateTokensV1 p 0 votes s).map
        fun t => (t.communityPool, t.outstanding, t.current, t.burned, t.beneficiary))
      = some (s.communityPool + NewDecCoinsFromCoins s.feeCollector, s.outstanding, s.current,
          s.burned, s.beneficiary)
    ∧ ((AllocateTokensV2 p 0 votes s).map
        fun t => (t.communityPool, t.outstanding, t.current, t.burned, t.beneficiary))
      = some (s.communityPool + NewDecCoinsFromCoins s.feeCollector, s.outstanding, s.current,
          s.burned, s.beneficiary)
    ∧ ((AllocateTokensV3 p 0 votes s).map
        fun t => (t.communityPool, t.outstanding, t.current, t.burned, t.beneficiary))
      = some (s.communityPool + NewDecCoinsFromCoins (v3FeesCollectedInt p s), s.outstanding,
          s.current, s.burned, s.beneficiary) := by
  refine ⟨rfl, rfl, rfl⟩

end CosmosSdk

namespace CosmosSdk

lemma decUnit_pos : (0 : Int) < decUnit := by norm_num [decUnit]

lemma sub_applyC {nd : Nat} (a b : DecCoins nd) (d : Fin nd) : (a - b) d = a d - b d := rfl

lemma decMulTruncate_nonneg {a b : Int} (ha : 0 ≤ a) (hb : 0 ≤ b) :
    0 ≤ decMulTruncate a b :=
  Int.tdiv_nonneg (mul_nonneg ha hb) decUnit_pos.le

lemma powerFractionOf_nonneg {power total : Int} (hp : 0 ≤ power) (ht : 0 ≤ total) :
    0 ≤ powerFractionOf power total :=
  Int.tdiv_nonneg (mul_nonneg (mul_nonneg hp decUnit_pos.le) decUnit_pos.le)
    (mul_nonneg ht decUnit_pos.le)

/-- Truncating multiplication by a ratio in `[0, 1]` never exceeds the
multiplicand. -/
lemma decMulTruncate_le_self {a r : Int} (ha : 0 ≤ a) (h0 : 0 ≤ r) (h1 : r ≤ decUnit) :
    decMulTruncate a r ≤ a := by
  unfold decMulTruncate
  rw [Int.tdiv_eq_ediv (mul_nonneg ha h0) decUnit_pos.le]
  calc a * r / decUnit ≤ a * decUnit / decUnit :=
        Int.ediv_le_ediv decUnit_pos (mul_le_mul_of_nonneg_left h1 ha)
    _ = a := Int.mul_ediv_cancel a (by norm_num [decUnit])

/-- `subC` aborts whenever the pointwise difference is negative in any
coin. -/
lemma subC_eq_none {nd : Nat} {a b : DecCoins nd} (h : anyNegC (a - b) = true) :
    subC a b = none := by
  unfold subC
  simp only []
  exact if_pos h

/-- C2.  Non-negativity and fatal abort.  First part: under the documented
parameter ranges (community tax in `[0,1]`, voter ratio in `[0,1]`,
non-negative balances and powers), every computed per-vote `reward`,
`voterReward` and `minerReward` is non-negative in every coin.  Second
part: whenever the computed miner remainder `reward - voterReward` is
negative in some coin, both per-validator handlers abort fatally (the
subtraction itself panics), so no store mutation, burn or transfer happens
for that validator. -/
theorem C2_nonneg_and_fatal_abort :
    (∀ (nd nv : Nat) (p : DistParams nv) (fees : Coins nd) (totalPower power : Int),
      (∀ d, 0 ≤ fees d) → 0 ≤ p.communityTax → p.communityTax ≤ decUnit →
      0 ≤ p.voterRewards.ratio → p.voterRewards.ratio ≤ decUnit →
      0 < totalPower → 0 ≤ power →
      (∀ d, 0 ≤ rewardAt (mulDecTruncateC (NewDecCoinsFromCoins fees)
          (decUnit - p.communityTax)) totalPower power d)
      ∧ (∀ d, 0 ≤ voterRewardOf p (rewardAt (mulDecTruncateC (NewDecCoinsFromCoins fees)
          (decUnit - p.communityTax)) totalPower power) d)
      ∧ (∀ d, 0 ≤ minerRewardOf p (rewardAt (mulDecTruncateC (NewDecCoinsFromCoins fees)
          (decUnit - p.communityTax)) totalPower power) d))
    ∧ (∀ (nd nv : Nat) (p : DistParams nv) (v : Fin nv) (reward : DecCoins nd)
        (s : DistState nd nv),
      anyNegC (minerRewardOf p reward) = true →
      burnOrAllocateTokensToValidator p v reward s = none
      ∧ allocateTokensToBeneficiaries p v reward s = none) := by
  constructor
  · intro nd nv p fees totalPower power hfees htax0 htax1 hr0 hr1 htp hpw
    have hreward : ∀ d, 0 ≤ rewardAt (mulDecTruncateC (NewDecCoinsFromCoins fees)
        (decUnit - p.communityTax)) totalPower power d := by
      intro d
      apply decMulTruncate_nonneg
      · apply decMulTruncate_nonneg
        · exact mul_nonneg (hfees d) decUnit_pos.le
        · omega
      · exact powerFractionOf_nonneg hpw htp.le
    refine ⟨hreward, fun d => ?_, fun d => ?_⟩
    · exact decMulTruncate_nonneg (hreward d) hr0
    · rw [minerRewardOf, sub_applyC, sub_nonneg]
      exact decMulTruncate_le_self (hreward d) hr0 hr1
  · intro nd nv p v reward s h
    have hsub : subC reward (mulDecTruncateC reward p.voterRewards.ratio) = none :=
      subC_eq_none h
    constructor
    · unfold burnOrAllocateTokensToValidator
      simp only []
      rw [hsub]
    · unfold allocateTokensToBeneficiaries
      simp only []
      rw [hsub]

/-- Witness for `C2_nonneg_and_fatal_abort` at concrete inputs: the C5
parameters for non-negativity, and a misconfigured ratio of 2.0 for the
fatal abort. -/
theorem C2_nonneg_and_fatal_abort_witness :
    0 ≤ rewardAt (mulDecTruncateC (NewDecCoinsFromCoins (fun _ : Fin 1 => 1000))
        (decUnit - 2 * 10 ^ 16)) 100 100 0
    ∧ burnOrAllocateTokensToValidator (⟨0, ⟨2 * decUnit, none⟩, []⟩ : DistParams 1) 0
        (fun _ : Fin 1 => decUnit)
        (⟨fun _ => 0, fun _ => 0, fun _ _ => 0, fun _ _ => 0, fun _ => 0, fun _ => 0,
          fun _ => 0⟩ : DistState 1 1) = none := by
  constructor
  · exact ((C2_nonneg_and_fatal_abort.1 1 1 (⟨2 * 10 ^ 16, ⟨10 ^ 17, none⟩, []⟩ : DistParams 1)
      (fun _ => 1000) 100 100 (by decide) (by decide) (by decide) (by decide) (by decide)
      (by decide) (by decide)).1 0)
  · exact (C2_nonneg_and_fatal_abort.2 1 1 (⟨0, ⟨2 * decUnit, none⟩, []⟩ : DistParams 1) 0
      (fun _ : Fin 1 => decUnit)
      (⟨fun _ => 0, fun _ => 0, fun _ _ => 0, fun _ _ => 0, fun _ => 0, fun _ => 0,
        fun _ => 0⟩ : DistState 1 1) (by decide)).1

end CosmosSdk

namespace CosmosSdk

/-- C3.  The claim says the voter-reward portion is always forwarded to the
beneficiary or burned, never retained.  In the `allocateTokensToBeneficiaries`
variant the run below burns nothing and transfers nothing while the
computed voter portion is 98 tokens, all of which stays in the
distribution module (its balance keeps the full 1000 collected tokens). -/
theorem C3_voter_portion_counterexample :
    ((AllocateTokensV2 (⟨2 * 10 ^ 16, ⟨10 ^ 17, none⟩, []⟩ : DistParams 1) 100
          [((0 : Fin 1), (100 : Int))]
          (⟨fun _ => 1000, fun _ => 0, fun _ _ => 0, fun _ _ => 0, fun _ => 0, fun _ => 0,
            fun _ => 0⟩ : DistState 1 1)).map
        fun s1 => (s1.burned 0, s1.beneficiary 0, s1.distModule 0)) = some (0, 0, 1000)
    ∧ DecCoins2Coins (voterRewardOf (⟨2 * 10 ^ 16, ⟨10 ^ 17, none⟩, []⟩ : DistParams 1)
        (rewardAt (mulDecTruncateC (NewDecCoinsFromCoins (fun _ : Fin 1 => 1000))
          (decUnit - 2 * 10 ^ 16)) 100 100)) 0 = 98
    ∧ (98 : Int) ≠ 0 := by
  refine ⟨by decide, by decide, by decide⟩

/-- C3 (amended).  In `burnOrAllocateTokensToValidator` the whole-token
truncation of the voter portion is sent to the beneficiary when one is
configured and burned otherwise; in `allocateTokensToBeneficiaries` the
voter portion is retained in the distribution module — nothing is sent to
a beneficiary and only the burn-list branch burns anything. -/
theorem C3_voter_portion_amended {nd nv : Nat} (p : DistParams nv) (v : Fin nv)
    (r : DecCoins nd) (s s1 s2 : DistState nd nv) :
    (burnOrAllocateTokensToValidator p v r s = some s1 →
      (∀ b, p.voterRewards.beneficiaryAddr = some b →
        s1.beneficiary = s.beneficiary + DecCoins2Coins (voterRewardOf p r)
        ∧ s1.burned = s.burned + (if isBurnValidator v p.burnValidators then
            DecCoins2Coins (minerRewardOf p r) else 0))
      ∧ (p.voterRewards.beneficiaryAddr = none →
        s1.burned = s.burned + DecCoins2Coins (voterRewardOf p r)
            + (if isBurnValidator v p.burnValidators then
                DecCoins2Coins (minerRewardOf p r) else 0)
        ∧ s1.beneficiary = s.beneficiary))
    ∧ (allocateTokensToBeneficiaries p v r s = some s2 →
      s2.beneficiary = s.beneficiary
      ∧ s2.burned = s.burned + (if isBurnValidator v p.burnValidators then
          DecCoins2Coins r else 0)) := by
  constructor
  · intro h
    unfold burnOrAllocateTokensToValidator at h
    simp only [] at h
    cases hsub : subC r (mulDecTruncateC r p.voterRewards.ratio) with
    | none => rw [hsub] at h; cases h
    | some miner =>
      rw [hsub] at h
      simp only [] at h
      obtain ⟨hmv, hneg⟩ := subC_eq_some hsub
      have hmv' : miner = minerRewardOf p r := hmv
      subst hmv'
      have hneg' : anyNegC (minerRewardOf p r) = false := hneg
      rw [if_neg (by simp [hneg'])] at h
      cases hben : p.voterRewards.beneficiaryAddr with
      | some b =>
        rw [hben] at h
        simp only [] at h
        constructor
        · intro b' _
          by_cases hburn : isBurnValidator v p.burnValidators = true
          · rw [if_pos hburn] at h
            injection h with h1
            rw [← h1, if_pos hburn]
            constructor <;> simp [voterRewardOf]
          · rw [if_neg hburn] at h
            injection h with h1
            rw [← h1, if_neg (by simpa using hburn)]
            constructor <;> simp [voterRewardOf]
        · intro hnone; cases hnone
      | none =>
        rw [hben] at h
        simp only [] at h
        constructor
        · intro b' hb'; cases hb'
        · intro _
          by_cases hburn : isBurnValidator v p.burnValidators = true
          · rw [if_pos hburn] at h
            injection h with h1
            rw [← h1, if_pos hburn]
            constructor <;> simp [voterRewardOf, add_assoc]
          · rw [if_neg hburn] at h
            injection h with h1
            rw [← h1, if_neg (by simpa using hburn)]
            constructor <;> simp [voterRewardOf]
  · intro h
    unfold allocateTokensToBeneficiaries at h
    simp only [] at h
    cases hsub : subC r (mulDecTruncateC r p.voterRewards.ratio) with
    | none => rw [hsub] at h; cases h
    | some miner =>
      rw [hsub] at h
      simp only [] at h
      obtain ⟨hmv, hneg⟩ := subC_eq_some hsub
      have hmv' : miner = minerRewardOf p r := hmv
      subst hmv'
      have hneg' : anyNegC (minerRewardOf p r) = false := hneg
      rw [if_neg (by simp [hneg'])] at h
      by_cases hburn : isBurnValidator v p.burnValidators = true
      · rw [if_pos hburn] at h
        injection h with h1
        rw [← h1, if_pos hburn]
        constructor <;> simp
      · rw [if_neg hburn] at h
        injection h with h1
        rw [← h1, if_neg (by simpa using hburn)]
        constructor <;> simp

end CosmosSdk

namespace CosmosSdk

/-- Parameters for the C3 witness run (ratio 0.10, no beneficiary, empty
burn list). -/
def c3P : DistParams 1 := ⟨2 * 10 ^ 16, ⟨10 ^ 17, none⟩, []⟩

/-- Reward handed to the per-validator handler in the C3 witness run. -/
def c3R : DecCoins 1 := fun _ => 980 * decUnit

/-- Start state of the C3 witness run. -/
def c3S0 : DistState 1 1 :=
  ⟨fun _ => 0, fun _ => 1000, fun _ _ => 0, fun _ _ => 0, fun _ => 0, fun _ => 0, fun _ => 0⟩

/-- Result state of the C3 witness run. -/
def c3Res : DistState 1 1 := (burnOrAllocateTokensToValidator c3P 0 c3R c3S0).getD c3S0

/-- Witness for `C3_voter_portion_amended` at a concrete input. -/
theorem C3_voter_portion_amended_witness :
    c3Res.burned = c3S0.burned + DecCoins2Coins (voterRewardOf c3P c3R)
        + (if isBurnValidator (0 : Fin 1) c3P.burnValidators then
            DecCoins2Coins (minerRewardOf c3P c3R) else 0)
    ∧ c3Res.beneficiary = c3S0.beneficiary :=
  ((C3_voter_portion_amended c3P 0 c3R c3S0 c3Res c3S0).1 rfl).2 rfl

/-- C4.  The claim says exactly the miner remainder is burned for a
burn-list validator.  In the `allocateTokensToBeneficiaries` variant the
run below burns 980 tokens — the full reward, voter portion included —
while the truncated miner remainder is 882 tokens; the validator's
accumulators are indeed unchanged. -/
theorem C4_burnlist_counterexample :
    ((AllocateTokensV2 (⟨2 * 10 ^ 16, ⟨10 ^ 17, none⟩, [0]⟩ : DistParams 1) 100
          [((0 : Fin 1), (100 : Int))]
          (⟨fun _ => 1000, fun _ => 0, fun _ _ => 0, fun _ _ => 0, fun _ => 0, fun _ => 0,
            fun _ => 0⟩ : DistState 1 1)).map
        fun s1 => (s1.burned 0, s1.outstanding 0 0)) = some (980, 0)
    ∧ DecCoins2Coins (minerRewardOf (⟨2 * 10 ^ 16, ⟨10 ^ 17, none⟩, [0]⟩ : DistParams 1)
        (rewardAt (mulDecTruncateC (NewDecCoinsFromCoins (fun _ : Fin 1 => 1000))
          (decUnit - 2 * 10 ^ 16)) 100 100)) 0 = 882
    ∧ (980 : Int) ≠ 882 := by
  refine ⟨by decide, by decide, by decide⟩

/-- C4 (amended).  Burn-list handling of the miner remainder: in
`burnOrAllocateTokensToValidator` a burn-list validator has exactly the
whole-token truncation of the miner remainder burned (on top of the voter
burn when no beneficiary is configured) and its accumulators untouched; in
`allocateTokensToBeneficiaries` the *full* reward is burned instead.  In
both variants a validator not in the burn list has the miner remainder
added to its `CurrentRewards` and `OutstandingRewards` and no other
validator's accumulators change. -/
theorem C4_burnlist_amended {nd nv : Nat} (p : DistParams nv) (v : Fin nv)
    (r : DecCoins nd) (s s1 s2 : DistState nd nv) :
    (burnOrAllocateTokensToValidator p v r s = some s1 →
      (isBurnValidator v p.burnValidators = true →
        s1.outstanding = s.outstanding ∧ s1.current = s.current
        ∧ s1.burned = s.burned
            + (if p.voterRewards.beneficiaryAddr = none then
                DecCoins2Coins (voterRewardOf p r) else 0)
            + DecCoins2Coins (minerRewardOf p r))
      ∧ (isBurnValidator v p.burnValidators = false →
        s1.outstanding v = s.outstanding v + minerRewardOf p r
        ∧ s1.current v = s.current v + minerRewardOf p r
        ∧ (∀ w, w ≠ v → s1.outstanding w = s.outstanding w ∧ s1.current w = s.current w)))
    ∧ (allocateTokensToBeneficiaries p v r s = some s2 →
      (isBurnValidator v p.burnValidators = true →
        s2.outstanding = s.outstanding ∧ s2.current = s.current
        ∧ s2.burned = s.burned + DecCoins2Coins r)
      ∧ (isBurnValidator v p.burnValidators = false →
        s2.outstanding v = s.outstanding v + minerRewardOf p r
        ∧ s2.current v = s.current v + minerRewardOf p r
        ∧ (∀ w, w ≠ v → s2.outstanding w = s.outstanding w ∧ s2.current w = s.current w))) := by
  constructor
  · intro h
    unfold burnOrAllocateTokensToValidator at h
    simp only [] at h
    cases hsub : subC r (mulDecTruncateC r p.voterRewards.ratio) with
    | none => rw [hsub] at h; cases h
    | some miner =>
      rw [hsub] at h
      simp only [] at h
      obtain ⟨hmv, hneg⟩ := subC_eq_some hsub
      have hmv' : miner = minerRewardOf p r := hmv
      subst hmv'
      have hneg' : anyNegC (minerRewardOf p r) = false := hneg
      rw [if_neg (by simp [hneg'])] at h
      cases hben : p.voterRewards.beneficiaryAddr with
      | some b =>
        rw [hben] at h
        simp only [] at h
        constructor
        · intro hburn
          rw [if_pos hburn] at h
          injection h with h1
          rw [← h1]
          refine ⟨rfl, rfl, ?_⟩
          rw [if_neg (by simp)]
          simp
        · intro hburn
          rw [if_neg (by simp [hburn])] at h
          injection h with h1
          rw [← h1]
          refine ⟨?_, ?_, fun w hw => ⟨?_, ?_⟩⟩
          · simp [AllocateTokensToValidator, sendToBeneficiary]
          · simp [AllocateTokensToValidator, sendToBeneficiary]
          · simp [AllocateTokensToValidator, sendToBeneficiary, hw]
          · simp [AllocateTokensToValidator, sendToBeneficiary, hw]
      | none =>
        rw [hben] at h
        simp only [] at h
        constructor
        · intro hburn
          rw [if_pos hburn] at h
          injection h with h1
          rw [← h1]
          refine ⟨rfl, rfl, ?_⟩
          rw [if_pos rfl]
          simp [voterRewardOf, add_assoc]
        · intro hburn
          rw [if_neg (by simp [hburn])] at h
          injection h with h1
          rw [← h1]
          refine ⟨?_, ?_, fun w hw => ⟨?_, ?_⟩⟩
          · simp [AllocateTokensToValidator, burnFromModule]
          · simp [AllocateTokensToValidator, burnFromModule]
          · simp [AllocateTokensToValidator, burnFromModule, hw]
          · simp [AllocateTokensToValidator, burnFromModule, hw]
  · intro h
    unfold allocateTokensToBeneficiaries at h
    simp only [] at h
    cases hsub : subC r (mulDecTruncateC r p.voterRewards.ratio) with
    | none => rw [hsub] at h; cases h
    | some miner =>
      rw [hsub] at h
      simp only [] at h
      obtain ⟨hmv, hneg⟩ := subC_eq_some hsub
      have hmv' : miner = minerRewardOf p r := hmv
      subst hmv'
      have hneg' : anyNegC (minerRewardOf p r) = false := hneg
      rw [if_neg (by simp [hneg'])] at h
      constructor
      · intro hburn
        rw [if_pos hburn] at h
        injection h with h1
        rw [← h1]
        exact ⟨rfl, rfl, rfl⟩
      · intro hburn
        rw [if_neg (by simp [hburn])] at h
        injection h with h1
        rw [← h1]
        refine ⟨?_, ?_, fun w hw => ⟨?_, ?_⟩⟩
        · simp [AllocateTokensToValidator]
        · simp [AllocateTokensToValidator]
        · simp [AllocateTokensToValidator, hw]
        · simp [AllocateTokensToValidator, hw]

/-- Parameters for the C4 witness run (ratio 0.10, no beneficiary,
validator 0 in the burn list). -/
def c4P : DistParams 1 := ⟨2 * 10 ^ 16, ⟨10 ^ 17, none⟩, [0]⟩

/-- Reward handed to the per-validator handler in the C4 witness run. -/
def c4R : DecCoins 1 := fun _ => 980 * decUnit

/-- Start state of the C4 witness run. -/
def c4S0 : DistState 1 1 :=
  ⟨fun _ => 0, fun _ => 1000, fun _ _ => 0, fun _ _ => 0, fun _ => 0, fun _ => 0, fun _ => 0⟩

/-- Result state of the C4 witness run. -/
def c4Res : DistState 1 1 := (burnOrAllocateTokensToValidator c4P 0 c4R c4S0).getD c4S0

/-- Witness for `C4_burnlist_amended` at a concrete input. -/
theorem C4_burnlist_amended_witness :
    c4Res.outstanding = c4S0.outstanding ∧ c4Res.current = c4S0.current
    ∧ c4Res.burned = c4S0.burned
        + (if c4P.voterRewards.beneficiaryAddr = none then
            DecCoins2Coins (voterRewardOf c4P c4R) else 0)
        + DecCoins2Coins (minerRewardOf c4P c4R) :=
  ((C4_burnlist_amended c4P 0 c4R c4S0 c4Res c4S0).1 rfl).1 rfl

end CosmosSdk

namespace Staking

/-! ## Staking: store primitives

The ordered key-value store is embedded as association lists.  Operator
and consensus addresses are canonical identities (`Nat`): all
bech32-string round-trips in the source (`ValAddressFromBech32` /
`.String()`) are identities on canonical addresses, and a malformed stored
string — which the source turns into a panic — cannot arise. -/

/-- `store.Get` on an association list. -/
def alistGet {α β : Type} [DecidableEq α] (l : List (α × β)) (k : α) : Option β :=
  match l.find? (fun e => decide (e.1 = k)) with
  | some e => some e.2
  | none => none

/-- `store.Set` on an association list: bind `k` to `v`, dropping any
previous binding. -/
def alistSet {α β : Type} [DecidableEq α] (l : List (α × β)) (k : α) (v : β) :
    List (α × β) :=
  (k, v) :: l.filter (fun e => decide (e.1 ≠ k))

/-- `store.Delete` on an association list. -/
def alistDel {α β : Type} [DecidableEq α] (l : List (α × β)) (k : α) : List (α × β) :=
  l.filter (fun e => decide (e.1 ≠ k))

/-! ## Staking: data model -/

/-- `types.BondStatus`. -/
inductive BondStatus where
  | unbonded
  | unbonding
  | bonded
  deriving DecidableEq

/-- `types.Validator` — the fields the lifecycle manager reads or
writes. -/
structure Validator where
  operatorAddress : Nat
  consensusAddress : Nat
  jailed : Bool
  status : BondStatus
  tokens : Int
  delegatorShares : Int
  unbondingHeight : Int
  unbondingTime : Int
  unbondingOnHoldRefCount : Int
  unbondingIds : List Nat
  deriving DecidableEq

/-- The staking keeper's persisted state: validator records by operator
address, the consensus-address index, the power index (the set of
`(consensusPower, operatorAddress)` keys), the unbonding queue keyed by
`(completionTime, completionHeight)`, and the unbonding-id index touched
by `DeleteUnbondingIndex`. -/
structure StakingState where
  validators : List (Nat × Validator)
  consIndex : List (Nat × Nat)
  powerIndex : List (Int × Nat)
  queue : List ((Int × Int) × List Nat)
  ubdIndex : List Nat
  deriving DecidableEq

/-- `Keeper.GetValidator`. -/
def GetValidator (s : StakingState) (addr : Nat) : Option Validator :=
  alistGet s.validators addr

/-- `Keeper.SetValidator`. -/
def SetValidator (s : StakingState) (v : Validator) : StakingState :=
  { s with validators := alistSet s.validators v.operatorAddress v }

/-- `Keeper.SetValidatorByConsAddr` (the `GetConsAddr` of a stored record
is assumed well-formed; a failure is returned before any write). -/
def SetValidatorByConsAddr (s : StakingState) (v : Validator) : StakingState :=
  { s with consIndex := alistSet s.consIndex v.consensusAddress v.operatorAddress }

/-- `sdk.TokensToConsensusPower` as used by
`types.GetValidatorsByPowerIndexKey`: tokens divided by the power
reduction, truncated. -/
def consensusPowerOf (powerReduction : Int) (v : Validator) : Int :=
  Int.tdiv v.tokens powerReduction

/-- Modelled from the spec: `types.GetValidatorsByPowerIndexKey` (not under
`src/`) encodes `(consensusPower, operatorAddress)` so that the store's
byte order coincides with the numeric order on this pair (spec §4.1: key
encoding must sort so that higher power sorts first under the native byte
ordering). -/
def powerIndexKey (powerReduction : Int) (v : Validator) : Int × Nat :=
  (consensusPowerOf powerReduction v, v.operatorAddress)

/-- `Keeper.SetValidatorByPowerIndex`: jailed validators are not kept in
the power index. -/
def SetValidatorByPowerIndex (s : StakingState) (powerReduction : Int) (v : Validator) :
    StakingState :=
  if v.jailed then s
  else { s with powerIndex :=
    if powerIndexKey powerReduction v ∈ s.powerIndex then s.powerIndex
    else powerIndexKey powerReduction v :: s.powerIndex }

/-- `Keeper.DeleteValidatorByPowerIndex`. -/
def DeleteValidatorByPowerIndex (s : StakingState) (powerReduction : Int) (v : Validator) :
    StakingState :=
  { s with powerIndex :=
    s.powerIndex.filter (fun e => decide (e ≠ powerIndexKey powerReduction v)) }

/-- Modelled from the spec: `Validator.AddTokensFromDel` (library code not
under `src/`): issue shares proportionally to the existing tokens-per-share
ratio, 1:1 when no shares are outstanding (spec §4.2), truncating
(spec §4.3 rationale); issuing against zero tokens with nonzero shares is
the library's error-panic, modelled as `none`. -/
def AddTokensFromDel (v : Validator) (amount : Int) : Option (Validator × Int) :=
  match (if v.delegatorShares = 0 then some (CosmosSdk.intToDec amount)
         else if v.tokens = 0 then none
         else some (Int.tdiv (v.delegatorShares * amount) v.tokens)) with
  | none => none
  | some issuedShares =>
    some ({ v with
        tokens := v.tokens + amount,
        delegatorShares := v.delegatorShares + issuedShares }, issuedShares)

/-- Modelled from the spec: `Validator.RemoveDelShares` (library code not
under `src/`): the inverse computation, failing when more shares are
removed than exist (spec §4.2), with truncating division (spec §4.3
rationale); removing the last share releases all remaining tokens. -/
def RemoveDelShares (v : Validator) (delShares : Int) : Option (Validator × Int) :=
  if v.delegatorShares < delShares then none
  else
    let remainingShares := v.delegatorShares - delShares
    let issuedTokens :=
      if remainingShares = 0 then v.tokens
      else Int.tdiv (delShares * v.tokens) v.delegatorShares
    some ({ v with
        tokens := v.tokens - issuedTokens,
        delegatorShares := remainingShares }, issuedTokens)

/-- `Keeper.AddValidatorTokensAndShares`: delete the stale power-index
entry, add tokens and issue shares, persist, reinsert the power-index
entry. -/
def AddValidatorTokensAndShares (s : StakingState) (powerReduction : Int)
    (validator : Validator) (tokensToAdd : Int) :
    Option (StakingState × Validator × Int) :=
  let s1 := DeleteValidatorByPowerIndex s powerReduction validator
  match AddTokensFromDel validator tokensToAdd with
  | none => none
  | some (v', addedShares) =>
    let s2 := SetValidator s1 v'
    let s3 := SetValidatorByPowerIndex s2 powerReduction v'
    some (s3, v', addedShares)

/-- `Keeper.RemoveValidatorTokensAndShares`: delete the stale power-index
entry, remove shares and release tokens, persist, reinsert the power-index
entry. -/
def RemoveValidatorTokensAndShares (s : StakingState) (powerReduction : Int)
    (validator : Validator) (sharesToRemove : Int) :
    Option (StakingState × Validator × Int) :=
  let s1 := DeleteValidatorByPowerIndex s powerReduction validator
  match RemoveDelShares validator sharesToRemove with
  | none => none
  | some (v', removedTokens) =>
    let s2 := SetValidator s1 v'
    let s3 := SetValidatorByPowerIndex s2 powerReduction v'
    some (s3, v', removedTokens)

/-- `Keeper.RemoveValidator` (lines 161–190): silent return when no record
exists; panic (`none`) on a non-`Unbonded` status or positive tokens;
otherwise delete the record, the cons-addr index entry and the power-index
entry. -/
def RemoveValidator (s : StakingState) (powerReduction : Int) (address : Nat) :
    Option StakingState :=
  match GetValidator s address with
  | none => some s
  | some validator =>
    if validator.status ≠ BondStatus.unbonded then none
    else if 0 < validator.tokens then none
    else some
      { s with
        validators := alistDel s.validators address
        consIndex := alistDel s.consIndex validator.consensusAddress
        powerIndex := s.powerIndex.filter
          (fun e => decide (e ≠ powerIndexKey powerReduction validator)) }

/-! ## Staking: unbonding queue -/

/-- `Keeper.GetUnbondingValidators`: the queue entry for a completion
time/height, empty when absent. -/
def GetUnbondingValidators (s : StakingState) (endTime endHeight : Int) : List Nat :=
  (alistGet s.queue (endTime, endHeight)).getD []

/-- `Keeper.SetUnbondingValidatorsQueue`. -/
def SetUnbondingValidatorsQueue (s : StakingState) (endTime endHeight : Int)
    (addrs : List Nat) : StakingState :=
  { s with queue := alistSet s.queue (endTime, endHeight) addrs }

/-- `Keeper.InsertUnbondingValidatorQueue`: append to the existing slice. -/
def InsertUnbondingValidatorQueue (s : StakingState) (v : Validator) : StakingState :=
  SetUnbondingValidatorsQueue s v.unbondingTime v.unbondingHeight
    (GetUnbondingValidators s v.unbondingTime v.unbondingHeight ++ [v.operatorAddress])

/-- `Keeper.DeleteValidatorQueueTimeSlice`. -/
def DeleteValidatorQueueTimeSlice (s : StakingState) (endTime endHeight : Int) :
    StakingState :=
  { s with queue := alistDel s.queue (endTime, endHeight) }

/-- `Keeper.DeleteValidatorQueue`: drop the operator address from its
queue slice, deleting the slice outright when it empties. -/
def DeleteValidatorQueue (s : StakingState) (v : Validator) : StakingState :=
  let addrs := GetUnbondingValidators s v.unbondingTime v.unbondingHeight
  let newAddrs := addrs.filter (fun a => decide (a ≠ v.operatorAddress))
  if newAddrs = [] then DeleteValidatorQueueTimeSlice s v.unbondingTime v.unbondingHeight
  else SetUnbondingValidatorsQueue s v.unbondingTime v.unbondingHeight newAddrs

/-- Modelled from the spec: `Keeper.DeleteUnbondingIndex` (not under
`src/`) removes the unbonding-id reference `id` from its index (spec §3:
`unbondingIds` are opaque references cleared on maturation). -/
def DeleteUnbondingIndex (s : StakingState) (id : Nat) : StakingState :=
  { s with ubdIndex := s.ubdIndex.filter (fun i => decide (i ≠ id)) }

/-- Modelled from the spec: `Keeper.UnbondingToUnbonded` (not under
`src/`): panics unless the validator is `Unbonding`, then transitions it
to `Unbonded` and persists the record (spec §4.2 / §6.2 state machine:
`Unbonding → Unbonded` on maturation; the store owns the persisted
record). -/
def UnbondingToUnbonded (s : StakingState) (v : Validator) :
    Option (StakingState × Validator) :=
  if v.status ≠ BondStatus.unbonding then none
  else
    let v' := { v with status := BondStatus.unbonded }
    some (SetValidator s v', v')

end Staking

namespace Staking

/-- Byte order of composite queue keys (`time`-major, then `height`):
`ValidatorQueueIterator` visits exactly the keys that are at most the
cursor in this order. -/
def qkeyLe (a b : Int × Int) : Prop :=
  a.1 < b.1 ∨ (a.1 = b.1 ∧ a.2 ≤ b.2)

instance : DecidableRel qkeyLe := fun a b => by
  unfold qkeyLe; infer_instance

/-- The queue entries visited by `ValidatorQueueIterator(ctx, blockTime,
blockHeight)`: every stored entry whose key is at most the inclusive end
bound, in key order. -/
def maturedEntries (q : List ((Int × Int) × List Nat)) (blockTime blockHeight : Int) :
    List ((Int × Int) × List Nat) :=
  (q.filter (fun e => decide (qkeyLe e.1 (blockTime, blockHeight)))).insertionSort
    (fun e1 e2 => qkeyLe e1.1 e2.1)

/-- The body of `UnbondAllMatureValidators` for one address of a matured
queue entry: re-fetch the live record (panic when missing or not
`Unbonding`); when the hold count is zero, delete its unbonding-id index
entries, transition it to `Unbonded`, remove the whole record when its
delegator shares are zero (otherwise clear `UnbondingIds` on the local
copy only, exactly as the source does), and drop the address from the
queue; a positive hold count leaves everything untouched. -/
def processQueuedAddr (powerReduction : Int) (s : StakingState) (valAddr : Nat) :
    Option StakingState :=
  match GetValidator s valAddr with
  | none => none
  | some val =>
    if val.status ≠ BondStatus.unbonding then none
    else if val.unbondingOnHoldRefCount = 0 then
      let s1 := val.unbondingIds.foldl DeleteUnbondingIndex s
      match UnbondingToUnbonded s1 val with
      | none => none
      | some (s2, val2) =>
        if val2.delegatorShares = 0 then
          match RemoveValidator s2 powerReduction val2.operatorAddress with
          | none => none
          | some s3 => some (DeleteValidatorQueue s3 val2)
        else
          let val3 := { val2 with unbondingIds := [] }
          some (DeleteValidatorQueue s2 val3)
    else some s

/-- One iteration of the `unbondingValIterator` loop: the explicit
key-maturity check (`keyHeight <= blockHeight && keyTime <= blockTime`)
guards the per-address processing of the entry's decoded address list. -/
def processQueueEntry (powerReduction blockTime blockHeight : Int)
    (s : StakingState) (e : (Int × Int) × List Nat) : Option StakingState :=
  if e.1.2 ≤ blockHeight ∧ e.1.1 ≤ blockTime then
    e.2.foldlM (processQueuedAddr powerReduction) s
  else some s

/-- `Keeper.UnbondAllMatureValidators` (lines 420–480): iterate the queue
up to the current block time and height and process each listed address.
The iteration works over the entry snapshot decoded from the iterator;
the loop body only rewrites the queue at the key currently being
processed (each processed validator's recorded completion key is its
entry's key), so the snapshot iteration agrees with the live store. -/
def UnbondAllMatureValidators (powerReduction blockTime blockHeight : Int)
    (s : StakingState) : Option StakingState :=
  (maturedEntries s.queue blockTime blockHeight).foldlM
    (processQueueEntry powerReduction blockTime blockHeight) s

end Staking

namespace Staking

/-- C10.  `RemoveValidator` panics (fatally) when the stored validator is
not `Unbonded` or still holds positive tokens; deletes the record, the
cons-addr index entry and the power-index entry when it is `Unbonded`
with non-positive tokens; and returns silently without mutation when no
record exists. -/
theorem C10_remove_validator (pr : Int) (s : StakingState) (addr : Nat) :
    (GetValidator s addr = none → RemoveValidator s pr addr = some s)
    ∧ (∀ v, GetValidator s addr = some v →
        ((v.status ≠ BondStatus.unbonded ∨ 0 < v.tokens) →
          RemoveValidator s pr addr = none)
        ∧ (v.status = BondStatus.unbonded → v.tokens ≤ 0 →
          RemoveValidator s pr addr = some
            { s with
              validators := alistDel s.validators addr
              consIndex := alistDel s.consIndex v.consensusAddress
              powerIndex := s.powerIndex.filter
                (fun e => decide (e ≠ powerIndexKey pr v)) })) := by
  cases hget : GetValidator s addr with
  | none =>
    refine ⟨fun _ => ?_, fun v hv => ?_⟩
    · unfold RemoveValidator
      rw [hget]
    · cases hv
  | some v0 =>
    refine ⟨fun hn => ?_, fun v hv => ?_⟩
    · cases hn
    · injection hv with hv'
      subst hv'
      constructor
      · intro hbad
        unfold RemoveValidator
        rw [hget]
        simp only []
        rcases hbad with hst | htok
        · rw [if_pos hst]
        · by_cases hst : v0.status ≠ BondStatus.unbonded
          · rw [if_pos hst]
          · rw [if_neg hst, if_pos htok]
      · intro hst htok
        unfold RemoveValidator
        rw [hget]
        simp only []
        rw [if_neg (by simp [hst]), if_neg (by omega)]

/-- Validator used by the C10 witness: `Unbonded`, zero tokens. -/
def c10V : Validator := ⟨7, 70, false, BondStatus.unbonded, 0, 0, 0, 0, 0, []⟩

/-- Validator used by the C10 witness: `Bonded` with positive tokens. -/
def c10W : Validator := ⟨8, 80, false, BondStatus.bonded, 5, 5, 0, 0, 0, []⟩

/-- State used by the C10 witness. -/
def c10S : StakingState :=
  ⟨[(7, c10V), (8, c10W)], [(70, 7), (80, 8)], [(0, 7), (0, 8)], [], []⟩

/-- Witness for `C10_remove_validator`: a missing address returns the
state unchanged, a bonded validator with tokens panics, and the unbonded
zero-token validator is deleted from all three indexes. -/
theorem C10_remove_validator_witness :
    RemoveValidator c10S 1000000 9 = some c10S
    ∧ RemoveValidator c10S 1000000 8 = none
    ∧ RemoveValidator c10S 1000000 7 = some
        { c10S with
          validators := alistDel c10S.validators 7
          consIndex := alistDel c10S.consIndex c10V.consensusAddress
          powerIndex := c10S.powerIndex.filter
            (fun e => decide (e ≠ powerIndexKey 1000000 c10V)) } :=
  ⟨(C10_remove_validator 1000000 c10S 9).1 (by decide),
   ((C10_remove_validator 1000000 c10S 8).2 c10W (by decide)).1 (Or.inl (by decide)),
   ((C10_remove_validator 1000000 c10S 7).2 c10V (by decide)).2 (by decide) (by decide)⟩

end Staking

namespace Staking

section AListLemmas

variable {α β : Type} [DecidableEq α]

lemma find?_filter_ne (l : List (α × β)) (k k' : α) (h : k' ≠ k) :
    (l.filter (fun e => decide (e.1 ≠ k))).find? (fun e => decide (e.1 = k'))
      = l.find? (fun e => decide (e.1 = k')) := by
  rw [List.find?_filter]
  congr 1
  funext e
  by_cases hk' : e.1 = k'
  · have hek : e.1 ≠ k := fun hc => h (hk' ▸ hc)
    simp [hk', hek, h]
  · simp [hk']

lemma alistGet_set_self (l : List (α × β)) (k : α) (v : β) :
    alistGet (alistSet l k v) k = some v := by
  unfold alistGet alistSet
  simp [List.find?_cons]

lemma alistGet_set_ne (l : List (α × β)) (k : α) (v : β) {k' : α} (h : k' ≠ k) :
    alistGet (alistSet l k v) k' = alistGet l k' := by
  unfold alistGet alistSet
  rw [List.find?_cons_of_neg]
  · rw [find?_filter_ne l k k' h]
  · simp only [decide_eq_true_eq]
    exact fun hc => h hc.symm

lemma alistGet_del_self (l : List (α × β)) (k : α) :
    alistGet (alistDel l k) k = none := by
  unfold alistGet alistDel
  have : (l.filter (fun e => decide (e.1 ≠ k))).find? (fun e => decide (e.1 = k)) = none := by
    rw [List.find?_eq_none]
    intro e he
    simp only [List.mem_filter, decide_eq_true_eq] at he
    simp [he.2]
  rw [this]

lemma alistGet_del_ne (l : List (α × β)) (k : α) {k' : α} (h : k' ≠ k) :
    alistGet (alistDel l k) k' = alistGet l k' := by
  unfold alistGet alistDel
  rw [find?_filter_ne l k k' h]

lemma mem_of_alistGet_eq_some {l : List (α × β)} {k : α} {v : β}
    (h : alistGet l k = some v) : (k, v) ∈ l := by
  unfold alistGet at h
  cases hf : l.find? (fun e => decide (e.1 = k)) with
  | none => rw [hf] at h; cases h
  | some e =>
    rw [hf] at h
    injection h with h'
    have hmem := List.mem_of_find?_eq_some hf
    have hkey := List.find?_some hf
    simp only [decide_eq_true_eq] at hkey
    have : e = (k, v) := by
      obtain ⟨e1, e2⟩ := e
      simp only at hkey h'
      rw [hkey, h']
    rw [← this]
    exact hmem

lemma alistGet_eq_some_of_mem {l : List (α × β)} (hnd : (l.map Prod.fst).Nodup)
    {k : α} {v : β} (hm : (k, v) ∈ l) : alistGet l k = some v := by
  induction l with
  | nil => cases hm
  | cons e rest ih =>
    rw [List.map_cons, List.nodup_cons] at hnd
    cases hm with
    | head => unfold alistGet; simp [List.find?_cons]
    | tail _ hm' =>
      have hne : e.1 ≠ k := by
        intro hc
        exact hnd.1 (hc ▸ (List.mem_map.mpr ⟨(k, v), hm', rfl⟩))
      unfold alistGet
      rw [List.find?_cons_of_neg]
      · exact ih hnd.2 hm'
      · simp [hne]

lemma mem_alistSet_iff {l : List (α × β)} {k k' : α} {v v' : β} :
    (k', v') ∈ alistSet l k v ↔ (k' = k ∧ v' = v) ∨ ((k', v') ∈ l ∧ k' ≠ k) := by
  unfold alistSet
  constructor
  · intro hm
    rcases List.mem_cons.mp hm with h1 | h2
    · cases h1
      exact Or.inl ⟨rfl, rfl⟩
    · rw [List.mem_filter] at h2
      simp only [decide_eq_true_eq] at h2
      exact Or.inr h2
  · rintro (⟨h1, h2⟩ | ⟨h1, h2⟩)
    · subst h1; subst h2
      exact List.mem_cons_self _ _
    · exact List.mem_cons_of_mem _ (List.mem_filter.mpr ⟨h1, by simp [h2]⟩)

lemma mem_alistDel_iff {l : List (α × β)} {k k' : α} {v' : β} :
    (k', v') ∈ alistDel l k ↔ (k', v') ∈ l ∧ k' ≠ k := by
  unfold alistDel
  simp [List.mem_filter]

lemma alistKeysNodup_set {l : List (α × β)} (hnd : (l.map Prod.fst).Nodup) (k : α) (v : β) :
    ((alistSet l k v).map Prod.fst).Nodup := by
  unfold alistSet
  rw [List.map_cons, List.nodup_cons]
  constructor
  · intro hc
    obtain ⟨e, he, hek⟩ := List.mem_map.mp hc
    rw [List.mem_filter] at he
    simp only [decide_eq_true_eq] at he
    exact he.2 hek
  · have : (l.filter (fun e => decide (e.1 ≠ k))).map Prod.fst |>.Sublist (l.map Prod.fst) :=
      (List.filter_sublist l).map Prod.fst
    exact List.Nodup.sublist this hnd

lemma alistKeysNodup_del {l : List (α × β)} (hnd : (l.map Prod.fst).Nodup) (k : α) :
    ((alistDel l k).map Prod.fst).Nodup := by
  unfold alistDel
  have : (l.filter (fun e => decide (e.1 ≠ k))).map Prod.fst |>.Sublist (l.map Prod.fst) :=
    (List.filter_sublist l).map Prod.fst
  exact List.Nodup.sublist this hnd

end AListLemmas

end Staking

namespace Staking

/-! ## Power index ordering and consistency (C9) -/

/-- Iteration order of `ValidatorsPowerStoreIterator` (a reverse prefix
iterator): higher consensus power first; among equal powers the key
encoding (complemented operator bytes) yields ascending operator order. -/
def piBefore (x y : Int × Nat) : Prop :=
  y.1 < x.1 ∨ (x.1 = y.1 ∧ x.2 ≤ y.2)

instance : DecidableRel piBefore := fun x y => by
  unfold piBefore; infer_instance

instance : IsTotal (Int × Nat) piBefore :=
  ⟨fun x y => by unfold piBefore; omega⟩

instance : IsTrans (Int × Nat) piBefore :=
  ⟨fun x y z hxy hyz => by unfold piBefore at *; omega⟩

/-- `Keeper.ValidatorsPowerStoreIterator`: the power-index keys in
descending key order. -/
def ValidatorsPowerStoreIterator (s : StakingState) : List (Int × Nat) :=
  s.powerIndex.insertionSort piBefore

/-- The power index is consistent with the validator records: every entry
belongs to a stored, non-jailed validator and carries its current
consensus power. -/
def PowerIndexConsistent (pr : Int) (s : StakingState) : Prop :=
  ∀ k ∈ s.powerIndex, ∃ v, GetValidator s k.2 = some v ∧ v.jailed = false
    ∧ k.1 = consensusPowerOf pr v ∧ v.operatorAddress = k.2

/-- No jailed validator appears in the power index. -/
def NoJailedInIndex (s : StakingState) : Prop :=
  ∀ k ∈ s.powerIndex, ∀ v, GetValidator s k.2 = some v → v.jailed = false

/-- Modelled from the spec: the slashing keeper's jail path (not under
`src/`) sets the `Jailed` flag, persists the record, and removes the
power-index entry (spec §4.2: jailing removes the power-index entry
without changing `status`; §3: jailed validators are excluded from the
power index but retain their record). -/
def JailValidator (s : StakingState) (pr : Int) (v : Validator) : StakingState :=
  let v' := { v with jailed := true }
  DeleteValidatorByPowerIndex (SetValidator s v') pr v'

/-- Modelled from the spec: the unjail path (not under `src/`) clears the
`Jailed` flag, persists the record, and reinserts the power-index entry
(spec §4.2/§3). -/
def UnjailValidator (s : StakingState) (pr : Int) (v : Validator) : StakingState :=
  let v' := { v with jailed := false }
  SetValidatorByPowerIndex (SetValidator s v') pr v'

lemma noJailed_of_consistent {pr : Int} {s : StakingState}
    (h : PowerIndexConsistent pr s) : NoJailedInIndex s := by
  intro k hk v hv
  obtain ⟨w, hw, hwj, _, _⟩ := h k hk
  rw [hw] at hv
  injection hv with hv'
  rw [← hv']
  exact hwj

/-- `GetValidator` is unaffected by power-index writes. -/
lemma getValidator_setByPower (s : StakingState) (pr : Int) (v : Validator) (a : Nat) :
    GetValidator (SetValidatorByPowerIndex s pr v) a = GetValidator s a := by
  unfold SetValidatorByPowerIndex
  split <;> rfl

lemma getValidator_delByPower (s : StakingState) (pr : Int) (v : Validator) (a : Nat) :
    GetValidator (DeleteValidatorByPowerIndex s pr v) a = GetValidator s a := rfl

lemma getValidator_set_self (s : StakingState) (v : Validator) :
    GetValidator (SetValidator s v) v.operatorAddress = some v :=
  alistGet_set_self s.validators v.operatorAddress v

lemma getValidator_set_ne (s : StakingState) (v : Validator) {a : Nat}
    (h : a ≠ v.operatorAddress) : GetValidator (SetValidator s v) a = GetValidator s a :=
  alistGet_set_ne s.validators v.operatorAddress v h

lemma powerIndex_setValidator (s : StakingState) (v : Validator) :
    (SetValidator s v).powerIndex = s.powerIndex := rfl

lemma mem_powerIndex_setByPower {s : StakingState} {pr : Int} {v : Validator}
    {k : Int × Nat} :
    k ∈ (SetValidatorByPowerIndex s pr v).powerIndex ↔
      k ∈ s.powerIndex ∨ (v.jailed = false ∧ k = powerIndexKey pr v) := by
  unfold SetValidatorByPowerIndex
  by_cases hj : v.jailed
  · rw [if_pos hj]
    simp [hj]
  · rw [if_neg hj]
    simp only []
    by_cases hin : powerIndexKey pr v ∈ s.powerIndex
    · rw [if_pos hin]
      constructor
      · exact fun h => Or.inl h
      · rintro (h | ⟨_, h2⟩)
        · exact h
        · rw [h2]; exact hin
    · rw [if_neg hin]
      rw [List.mem_cons]
      constructor
      · rintro (h | h)
        · exact Or.inr ⟨Bool.not_eq_true _ ▸ hj, h⟩
        · exact Or.inl h
      · rintro (h | ⟨_, h2⟩)
        · exact Or.inr h
        · exact Or.inl h2

lemma mem_powerIndex_delByPower {s : StakingState} {pr : Int} {v : Validator}
    {k : Int × Nat} :
    k ∈ (DeleteValidatorByPowerIndex s pr v).powerIndex ↔
      k ∈ s.powerIndex ∧ k ≠ powerIndexKey pr v := by
  unfold DeleteValidatorByPowerIndex
  simp [List.mem_filter]

/-- Core preservation step shared by the token mutations and unjailing:
delete the caller's power-index key, persist the updated record, reinsert
through the jail-guarded `SetValidatorByPowerIndex`. -/
lemma consistent_update (pr : Int) (s : StakingState) (v v' : Validator)
    (hcons : PowerIndexConsistent pr s)
    (hget : GetValidator s v.operatorAddress = some v)
    (hop : v'.operatorAddress = v.operatorAddress) :
    PowerIndexConsistent pr
      (SetValidatorByPowerIndex (SetValidator (DeleteValidatorByPowerIndex s pr v) v')
        pr v') := by
  intro k hk
  rw [mem_powerIndex_setByPower] at hk
  rw [powerIndex_setValidator] at hk
  rcases hk with hk | ⟨hj, hk⟩
  · rw [mem_powerIndex_delByPower] at hk
    obtain ⟨hk1, hk2⟩ := hk
    obtain ⟨w, hw, hwj, hwp, hwop⟩ := hcons k hk1
    have hkne : k.2 ≠ v.operatorAddress := by
      intro hc
      have hww : w = v := by
        rw [hc] at hw
        rw [hget] at hw
        injection hw with h'
        exact h'.symm
      apply hk2
      unfold powerIndexKey
      rw [← hww]
      exact Prod.ext hwp hwop.symm
    refine ⟨w, ?_, hwj, hwp, hwop⟩
    rw [getValidator_setByPower, getValidator_set_ne _ _ (by rw [hop]; exact hkne),
      getValidator_delByPower]
    exact hw
  · refine ⟨v', ?_, hj, ?_, ?_⟩
    · rw [hk]
      show GetValidator _ v'.operatorAddress = some v'
      rw [getValidator_setByPower]
      exact getValidator_set_self _ v'
    · rw [hk]; rfl
    · rw [hk]; rfl

end Staking

namespace Staking

lemma addTokensFromDel_op {v v' : Validator} {amt sh : Int}
    (h : AddTokensFromDel v amt = some (v', sh)) :
    v'.operatorAddress = v.operatorAddress := by
  unfold AddTokensFromDel at h
  cases hi : (if v.delegatorShares = 0 then some (CosmosSdk.intToDec amt)
      else if v.tokens = 0 then none
      else some (Int.tdiv (v.delegatorShares * amt) v.tokens)) with
  | none => rw [hi] at h; cases h
  | some i =>
    rw [hi] at h
    simp only [] at h
    injection h with h'
    injection h' with h1 h2
    rw [← h1]

lemma removeDelShares_op {v v' : Validator} {del tok : Int}
    (h : RemoveDelShares v del = some (v', tok)) :
    v'.operatorAddress = v.operatorAddress := by
  unfold RemoveDelShares at h
  by_cases hlt : v.delegatorShares < del
  · rw [if_pos hlt] at h; cases h
  · rw [if_neg hlt] at h
    simp only [] at h
    injection h with h'
    injection h' with h1 h2
    rw [← h1]

/-- C9.  Power-index invariant: descending iteration always yields keys in
non-increasing power order; and after `AddValidatorTokensAndShares`,
`RemoveValidatorTokensAndShares`, or a jail/unjail re-index of a stored
validator, the index stays consistent with the records and contains no
entry of a jailed validator. -/
theorem C9_power_index_invariant (pr : Int) (s : StakingState) (v : Validator)
    (amt shares : Int) :
    List.Chain' (fun a b : Int × Nat => b.1 ≤ a.1) (ValidatorsPowerStoreIterator s)
    ∧ (PowerIndexConsistent pr s → GetValidator s v.operatorAddress = some v →
        (∀ s' v' x, AddValidatorTokensAndShares s pr v amt = some (s', v', x) →
          PowerIndexConsistent pr s' ∧ NoJailedInIndex s')
        ∧ (∀ s' v' x, RemoveValidatorTokensAndShares s pr v shares = some (s', v', x) →
          PowerIndexConsistent pr s' ∧ NoJailedInIndex s')
        ∧ (PowerIndexConsistent pr (JailValidator s pr v)
            ∧ NoJailedInIndex (JailValidator s pr v))
        ∧ (PowerIndexConsistent pr (UnjailValidator s pr v)
            ∧ NoJailedInIndex (UnjailValidator s pr v))) := by
  constructor
  · have hs : List.Sorted piBefore (s.powerIndex.insertionSort piBefore) :=
      List.sorted_insertionSort piBefore s.powerIndex
    have hp : List.Pairwise (fun a b : Int × Nat => b.1 ≤ a.1)
        (s.powerIndex.insertionSort piBefore) := by
      refine List.Pairwise.imp ?_ hs
      intro a b hab
      unfold piBefore at hab
      omega
    exact hp.chain'
  · intro hcons hget
    refine ⟨?_, ?_, ?_, ?_⟩
    · intro s' v' x h
      unfold AddValidatorTokensAndShares at h
      simp only [] at h
      cases hi : AddTokensFromDel v amt with
      | none => rw [hi] at h; cases h
      | some pr' =>
        obtain ⟨v2, sh⟩ := pr'
        rw [hi] at h
        simp only [] at h
        injection h with h'
        injection h' with h1 h2
        have hcons' := consistent_update pr s v v2 hcons hget (addTokensFromDel_op hi)
        rw [h1] at hcons'
        exact ⟨hcons', noJailed_of_consistent hcons'⟩
    · intro s' v' x h
      unfold RemoveValidatorTokensAndShares at h
      simp only [] at h
      cases hi : RemoveDelShares v shares with
      | none => rw [hi] at h; cases h
      | some pr' =>
        obtain ⟨v2, tok⟩ := pr'
        rw [hi] at h
        simp only [] at h
        injection h with h'
        injection h' with h1 h2
        have hcons' := consistent_update pr s v v2 hcons hget (removeDelShares_op hi)
        rw [h1] at hcons'
        exact ⟨hcons', noJailed_of_consistent hcons'⟩
    · have hcj : PowerIndexConsistent pr (JailValidator s pr v) := by
        intro k hk
        unfold JailValidator at hk ⊢
        simp only [] at hk ⊢
        rw [mem_powerIndex_delByPower] at hk
        rw [powerIndex_setValidator] at hk
        obtain ⟨hk1, hk2⟩ := hk
        obtain ⟨w, hw, hwj, hwp, hwop⟩ := hcons k hk1
        have hkne : k.2 ≠ v.operatorAddress := by
          intro hc
          have hww : w = v := by
            rw [hc, hget] at hw
            injection hw with h'
            exact h'.symm
          apply hk2
          unfold powerIndexKey consensusPowerOf
          rw [← hww]
          exact Prod.ext hwp hwop.symm
        refine ⟨w, ?_, hwj, hwp, hwop⟩
        rw [getValidator_delByPower, getValidator_set_ne _ _
          (show k.2 ≠ ({ v with jailed := true } : Validator).operatorAddress from hkne)]
        exact hw
      exact ⟨hcj, noJailed_of_consistent hcj⟩
    · have hcu : PowerIndexConsistent pr (UnjailValidator s pr v) := by
        intro k hk
        unfold UnjailValidator at hk ⊢
        simp only [] at hk ⊢
        rw [mem_powerIndex_setByPower] at hk
        rw [powerIndex_setValidator] at hk
        rcases hk with hk | ⟨hj, hk⟩
        · obtain ⟨w, hw, hwj, hwp, hwop⟩ := hcons k hk
          by_cases hc : k.2 = v.operatorAddress
          · have hww : w = v := by
              rw [hc, hget] at hw
              injection hw with h'
              exact h'.symm
            refine ⟨{ v with jailed := false }, ?_, rfl, ?_, ?_⟩
            · rw [getValidator_setByPower, hc]
              exact getValidator_set_self _ _
            · rw [hwp, hww]; rfl
            · rw [← hc, ← hwop, hww]
          · refine ⟨w, ?_, hwj, hwp, hwop⟩
            rw [getValidator_setByPower, getValidator_set_ne _ _
              (show k.2 ≠ ({ v with jailed := false } : Validator).operatorAddress from hc)]
            exact hw
        · refine ⟨{ v with jailed := false }, ?_, rfl, ?_, ?_⟩
          · rw [hk]
            show GetValidator _ ({ v with jailed := false } : Validator).operatorAddress
              = some _
            rw [getValidator_setByPower]
            exact getValidator_set_self _ _
          · rw [hk]; rfl
          · rw [hk]; rfl
      exact ⟨hcu, noJailed_of_consistent hcu⟩

end Staking

namespace Staking

/-- Validator for the C9 witness: bonded, not jailed, 5 consensus power. -/
def c9V : Validator := ⟨7, 70, false, BondStatus.bonded, 5000000, 5000000, 0, 0, 0, []⟩

/-- State for the C9 witness: one validator with a matching power-index
entry. -/
def c9S : StakingState := ⟨[(7, c9V)], [(70, 7)], [(5, 7)], [], []⟩

/-- Result of the C9 witness token addition. -/
def c9Add : StakingState × Validator × Int :=
  (AddValidatorTokensAndShares c9S 1000000 c9V 3000000).getD (c9S, c9V, 0)

/-- Witness for `C9_power_index_invariant` at a concrete input. -/
theorem C9_power_index_invariant_witness :
    List.Chain' (fun a b : Int × Nat => b.1 ≤ a.1) (ValidatorsPowerStoreIterator c9S)
    ∧ (PowerIndexConsistent 1000000 c9Add.1 ∧ NoJailedInIndex c9Add.1)
    ∧ (PowerIndexConsistent 1000000 (JailValidator c9S 1000000 c9V)
        ∧ NoJailedInIndex (JailValidator c9S 1000000 c9V)) := by
  have hcons : PowerIndexConsistent 1000000 c9S := by
    intro k hk
    have : k = (5, 7) := List.mem_singleton.mp hk
    subst this
    exact ⟨c9V, rfl, rfl, rfl, rfl⟩
  have hget : GetValidator c9S c9V.operatorAddress = some c9V := rfl
  refine ⟨(C9_power_index_invariant 1000000 c9S c9V 3000000 0).1, ?_, ?_⟩
  · exact ((C9_power_index_invariant 1000000 c9S c9V 3000000 0).2 hcons hget).1
      c9Add.1 c9Add.2.1 c9Add.2.2 rfl
  · exact ((C9_power_index_invariant 1000000 c9S c9V 3000000 0).2 hcons hget).2.2.1

end Staking

namespace Staking

/-! ## Unbonding queue: well-formedness and per-address behaviour (C7, C8) -/

/-- The live queue slice at a key. -/
def qGet (s : StakingState) (k : Int × Int) : List Nat :=
  (alistGet s.queue k).getD []

/-- Validator records are keyed by their own operator address. -/
def SelfKeyed (s : StakingState) : Prop :=
  ∀ p ∈ s.validators, (p.2).operatorAddress = p.1

/-- Queue keys are unique (the store is a map). -/
def KeysNodupQ (s : StakingState) : Prop :=
  (s.queue.map Prod.fst).Nodup

/-- Every queued address resolves to a live `Unbonding` record whose
completion time/height is its queue key and that can actually be removed
if its shares are zero. -/
def QueueSound (s : StakingState) : Prop :=
  ∀ e ∈ s.queue, ∀ a ∈ e.2, ∃ v, GetValidator s a = some v
    ∧ v.status = BondStatus.unbonding
    ∧ v.unbondingTime = e.1.1 ∧ v.unbondingHeight = e.1.2
    ∧ (v.delegatorShares = 0 → v.tokens ≤ 0)

/-- Queue slices have no duplicates and are pairwise disjoint: an address
is scheduled at most once. -/
def AddrsOK (s : StakingState) : Prop :=
  (∀ e ∈ s.queue, (e.2).Nodup)
  ∧ (∀ e1 ∈ s.queue, ∀ e2 ∈ s.queue, e1.1 ≠ e2.1 → ∀ a ∈ e1.2, a ∉ e2.2)

/-- Well-formedness of the staking state assumed by the queue-maturation
theorems: the invariants that `InsertUnbondingValidatorQueue` /
`DeleteValidatorQueue` / the validator store maintain. -/
def StateWF (s : StakingState) : Prop :=
  SelfKeyed s ∧ KeysNodupQ s ∧ QueueSound s ∧ AddrsOK s

/-- A queued address the maturation pass leaves alone: its live record is
still `Unbonding` with a positive hold count. -/
def skippable (s : StakingState) (a : Nat) : Prop :=
  ∃ v, GetValidator s a = some v ∧ v.status = BondStatus.unbonding
    ∧ v.unbondingOnHoldRefCount ≠ 0

lemma op_of_get {s : StakingState} {a : Nat} {v : Validator}
    (hsk : SelfKeyed s) (h : GetValidator s a = some v) : v.operatorAddress = a :=
  hsk (a, v) (mem_of_alistGet_eq_some h)

lemma entry_of_mem_qGet {s : StakingState} {k : Int × Int} {a : Nat}
    (h : a ∈ qGet s k) : (k, qGet s k) ∈ s.queue := by
  unfold qGet at h ⊢
  cases hg : alistGet s.queue k with
  | none => rw [hg] at h; cases h
  | some as =>
    exact mem_of_alistGet_eq_some hg

lemma qGet_of_mem {s : StakingState} {k : Int × Int} {as : List Nat}
    (hknd : KeysNodupQ s) (h : (k, as) ∈ s.queue) : qGet s k = as := by
  unfold qGet
  rw [alistGet_eq_some_of_mem hknd h]
  rfl

/-- The queue after `DeleteValidatorQueue s v`, slice by slice. -/
lemma qGet_deleteValidatorQueue (s : StakingState) (v : Validator) (k : Int × Int) :
    qGet (DeleteValidatorQueue s v) k =
      if k = (v.unbondingTime, v.unbondingHeight) then
        (qGet s (v.unbondingTime, v.unbondingHeight)).filter
          (fun a => decide (a ≠ v.operatorAddress))
      else qGet s k := by
  unfold DeleteValidatorQueue
  simp only []
  have hga : GetUnbondingValidators s v.unbondingTime v.unbondingHeight
      = qGet s (v.unbondingTime, v.unbondingHeight) := rfl
  by_cases hemp : (GetUnbondingValidators s v.unbondingTime v.unbondingHeight).filter
      (fun a => decide (a ≠ v.operatorAddress)) = []
  · rw [if_pos hemp]
    by_cases hk : k = (v.unbondingTime, v.unbondingHeight)
    · rw [if_pos hk, hk]
      show (alistGet (alistDel s.queue (v.unbondingTime, v.unbondingHeight))
        (v.unbondingTime, v.unbondingHeight)).getD [] = _
      rw [alistGet_del_self]
      rw [hga] at hemp
      rw [hemp]
      rfl
    · rw [if_neg hk]
      show (alistGet (alistDel s.queue (v.unbondingTime, v.unbondingHeight)) k).getD []
        = qGet s k
      rw [alistGet_del_ne _ _ hk]
      rfl
  · rw [if_neg hemp]
    by_cases hk : k = (v.unbondingTime, v.unbondingHeight)
    · rw [if_pos hk, hk]
      show (alistGet (alistSet s.queue (v.unbondingTime, v.unbondingHeight) _)
        (v.unbondingTime, v.unbondingHeight)).getD [] = _
      rw [alistGet_set_self]
      rfl
    · rw [if_neg hk]
      show (alistGet (alistSet s.queue (v.unbondingTime, v.unbondingHeight) _) k).getD []
        = qGet s k
      rw [alistGet_set_ne _ _ _ hk]
      rfl

lemma keysNodup_deleteValidatorQueue {s : StakingState} (v : Validator)
    (h : KeysNodupQ s) : KeysNodupQ (DeleteValidatorQueue s v) := by
  unfold DeleteValidatorQueue KeysNodupQ
  simp only []
  split
  · exact alistKeysNodup_del h _
  · exact alistKeysNodup_set h _ _

end Staking


namespace Staking

lemma foldl_deleteUbd_validators (ids : List Nat) (s : StakingState) :
    (ids.foldl DeleteUnbondingIndex s).validators = s.validators := by
  induction ids generalizing s with
  | nil => rfl
  | cons i rest ih => rw [List.foldl_cons]; exact ih (DeleteUnbondingIndex s i)

lemma foldl_deleteUbd_queue (ids : List Nat) (s : StakingState) :
    (ids.foldl DeleteUnbondingIndex s).queue = s.queue := by
  induction ids generalizing s with
  | nil => rfl
  | cons i rest ih => rw [List.foldl_cons]; exact ih (DeleteUnbondingIndex s i)

lemma mem_foldl_deleteUbd (ids : List Nat) (s : StakingState) (x : Nat) :
    x ∈ (ids.foldl DeleteUnbondingIndex s).ubdIndex ↔ x ∈ s.ubdIndex ∧ x ∉ ids := by
  induction ids generalizing s with
  | nil => simp
  | cons i rest ih =>
    rw [List.foldl_cons, ih]
    unfold DeleteUnbondingIndex
    simp only [List.mem_filter, decide_eq_true_eq, List.mem_cons, not_or]
    tauto

lemma deleteValidatorQueue_validators (s : StakingState) (v : Validator) :
    (DeleteValidatorQueue s v).validators = s.validators := by
  unfold DeleteValidatorQueue
  simp only []
  split <;> rfl

lemma deleteValidatorQueue_ubdIndex (s : StakingState) (v : Validator) :
    (DeleteValidatorQueue s v).ubdIndex = s.ubdIndex := by
  unfold DeleteValidatorQueue
  simp only []
  split <;> rfl

lemma getValidator_foldl_deleteUbd (ids : List Nat) (s : StakingState) (x : Nat) :
    GetValidator (ids.foldl DeleteUnbondingIndex s) x = GetValidator s x := by
  show alistGet (ids.foldl DeleteUnbondingIndex s).validators x = _
  rw [foldl_deleteUbd_validators]
  rfl

lemma getValidator_deleteValidatorQueue (s : StakingState) (v : Validator) (x : Nat) :
    GetValidator (DeleteValidatorQueue s v) x = GetValidator s x := by
  show alistGet (DeleteValidatorQueue s v).validators x = _
  rw [deleteValidatorQueue_validators]
  rfl

lemma qGet_congr {s t : StakingState} (h : s.queue = t.queue) (k : Int × Int) :
    qGet s k = qGet t k := by
  unfold qGet
  rw [h]

lemma removeValidator_eq (s : StakingState) (pr : Int) (a : Nat) (v : Validator)
    (hget : GetValidator s a = some v) (hst : v.status = BondStatus.unbonded)
    (htok : v.tokens ≤ 0) :
    RemoveValidator s pr a = some
      { s with
        validators := alistDel s.validators a
        consIndex := alistDel s.consIndex v.consensusAddress
        powerIndex := s.powerIndex.filter
          (fun e => decide (e ≠ powerIndexKey pr v)) } := by
  unfold RemoveValidator
  rw [hget]
  simp only []
  rw [if_neg (by simp [hst]), if_neg (by omega)]

/-- A queued address whose record still has a positive hold count is left
untouched by the loop body. -/
lemma processQueuedAddr_skip {pr : Int} {s : StakingState} {a : Nat} {val : Validator}
    (hget : GetValidator s a = some val)
    (hst : val.status = BondStatus.unbonding)
    (hrc : val.unbondingOnHoldRefCount ≠ 0) :
    processQueuedAddr pr s a = some s := by
  unfold processQueuedAddr
  rw [hget]
  simp only []
  rw [if_neg (by simp [hst]), if_neg hrc]

end Staking

namespace Staking

lemma selfKeyed_congr {s t : StakingState} (h : t.validators = s.validators)
    (hsk : SelfKeyed s) : SelfKeyed t := by
  unfold SelfKeyed at *
  rw [h]
  exact hsk

lemma keysNodupQ_congr {s t : StakingState} (h : t.queue = s.queue)
    (hknd : KeysNodupQ s) : KeysNodupQ t := by
  unfold KeysNodupQ at *
  rw [h]
  exact hknd

lemma selfKeyed_set {s : StakingState} (hsk : SelfKeyed s) (v : Validator) :
    SelfKeyed (SetValidator s v) := by
  intro p hp
  rcases mem_alistSet_iff.mp hp with ⟨h1, h2⟩ | ⟨h1, _⟩
  · rw [h1, h2]
  · exact hsk p h1

lemma selfKeyed_del {s : StakingState} (hsk : SelfKeyed s) (a : Nat) :
    SelfKeyed { s with validators := alistDel s.validators a } := by
  intro p hp
  exact hsk p (mem_alistDel_iff.mp hp).1

/-- What `RemoveValidator` can do when it succeeds: the queue and the
unbonding-id index are untouched, the target record is gone, and every
other record is preserved. -/
lemma removeValidator_spec {s t : StakingState} {pr : Int} {a : Nat}
    (h : RemoveValidator s pr a = some t) :
    t.queue = s.queue ∧ t.ubdIndex = s.ubdIndex ∧ GetValidator t a = none
    ∧ (∀ x, x ≠ a → GetValidator t x = GetValidator s x)
    ∧ (SelfKeyed s → SelfKeyed t) ∧ (KeysNodupQ s → KeysNodupQ t) := by
  unfold RemoveValidator at h
  cases hg : GetValidator s a with
  | none =>
    rw [hg] at h
    injection h with h'
    subst h'
    exact ⟨rfl, rfl, hg, fun _ _ => rfl, fun hsk => hsk, fun hknd => hknd⟩
  | some v =>
    rw [hg] at h
    simp only [] at h
    by_cases h1 : v.status ≠ BondStatus.unbonded
    · rw [if_pos h1] at h; cases h
    · rw [if_neg h1] at h
      by_cases h2 : 0 < v.tokens
      · rw [if_pos h2] at h; cases h
      · rw [if_neg h2] at h
        injection h with h'
        subst h'
        refine ⟨rfl, rfl, ?_, ?_, ?_, ?_⟩
        · exact alistGet_del_self s.validators a
        · intro x hx
          exact alistGet_del_ne s.validators a hx
        · intro hsk
          exact selfKeyed_del hsk a
        · intro hknd
          exact hknd

/-- Full characterisation of the loop body on a maturable address
(`Unbonding` status, hold count zero): the unbonding-id index entries are
deleted, the address is dropped from its queue slice, and its record
either becomes `Unbonded` — with `unbondingIds` left as they were, since
the source clears them only on a local copy — or is removed entirely when
its delegator shares are zero. -/
lemma processQueuedAddr_spec (pr : Int) (s : StakingState) (a : Nat) (val : Validator)
    (hsk : SelfKeyed s) (hknd : KeysNodupQ s)
    (hget : GetValidator s a = some val)
    (hst : val.status = BondStatus.unbonding)
    (hrc : val.unbondingOnHoldRefCount = 0)
    (hto : val.delegatorShares = 0 → val.tokens ≤ 0) :
    ∃ s1, processQueuedAddr pr s a = some s1
      ∧ (∀ x, x ≠ a → GetValidator s1 x = GetValidator s x)
      ∧ (∀ k, qGet s1 k =
          if k = (val.unbondingTime, val.unbondingHeight) then
            (qGet s (val.unbondingTime, val.unbondingHeight)).filter
              (fun x => decide (x ≠ a))
          else qGet s k)
      ∧ (∀ i, i ∈ s1.ubdIndex → i ∈ s.ubdIndex)
      ∧ (∀ i ∈ val.unbondingIds, i ∉ s1.ubdIndex)
      ∧ (val.delegatorShares = 0 → GetValidator s1 a = none)
      ∧ (val.delegatorShares ≠ 0 →
          GetValidator s1 a = some { val with status := BondStatus.unbonded })
      ∧ SelfKeyed s1 ∧ KeysNodupQ s1 := by
  have hop : val.operatorAddress = a := op_of_get hsk hget
  subst hop
  have hFv : (val.unbondingIds.foldl DeleteUnbondingIndex s).validators = s.validators :=
    foldl_deleteUbd_validators _ _
  have hFq : (val.unbondingIds.foldl DeleteUnbondingIndex s).queue = s.queue :=
    foldl_deleteUbd_queue _ _
  have hskF : SelfKeyed (val.unbondingIds.foldl DeleteUnbondingIndex s) :=
    selfKeyed_congr hFv hsk
  have hs2q : (SetValidator (val.unbondingIds.foldl DeleteUnbondingIndex s)
      { val with status := BondStatus.unbonded }).queue = s.queue := hFq
  have hsk2 : SelfKeyed (SetValidator (val.unbondingIds.foldl DeleteUnbondingIndex s)
      { val with status := BondStatus.unbonded }) :=
    selfKeyed_set hskF _
  have hknd2 : KeysNodupQ (SetValidator (val.unbondingIds.foldl DeleteUnbondingIndex s)
      { val with status := BondStatus.unbonded }) :=
    keysNodupQ_congr hs2q hknd
  unfold processQueuedAddr
  rw [hget]
  simp only []
  rw [if_neg (by simp [hst]), if_pos hrc]
  have hu : UnbondingToUnbonded (val.unbondingIds.foldl DeleteUnbondingIndex s) val
      = some (SetValidator (val.unbondingIds.foldl DeleteUnbondingIndex s)
          { val with status := BondStatus.unbonded },
        { val with status := BondStatus.unbonded }) := by
    unfold UnbondingToUnbonded
    rw [if_neg (by simp [hst])]
  rw [hu]
  simp only []
  by_cases hsh : val.delegatorShares = 0
  · rw [if_pos (show ({ val with status := BondStatus.unbonded } :
      Validator).delegatorShares = 0 from hsh)]
    have hrem := removeValidator_eq
      (SetValidator (val.unbondingIds.foldl DeleteUnbondingIndex s)
        { val with status := BondStatus.unbonded }) pr
      ({ val with status := BondStatus.unbonded } : Validator).operatorAddress
      { val with status := BondStatus.unbonded }
      (getValidator_set_self _ _) rfl (hto hsh)
    rw [hrem]
    simp only []
    obtain ⟨hq3, hubd3, hget3none, hget3ne, hsk3, hknd3⟩ := removeValidator_spec hrem
    refine ⟨_, rfl, ?_, ?_, ?_, ?_, ?_, ?_, ?_, ?_⟩
    · intro x hx
      rw [getValidator_deleteValidatorQueue, hget3ne x hx,
        getValidator_set_ne _ _ (show x ≠ ({ val with status := BondStatus.unbonded } :
          Validator).operatorAddress from hx)]
      exact getValidator_foldl_deleteUbd _ _ _
    · intro k
      have hqS3 := qGet_congr (hq3.trans hs2q)
      rw [qGet_deleteValidatorQueue, hqS3, hqS3]
    · intro i hi
      rw [deleteValidatorQueue_ubdIndex] at hi
      rw [hubd3] at hi
      exact ((mem_foldl_deleteUbd val.unbondingIds s i).mp hi).1
    · intro i hi hmem
      rw [deleteValidatorQueue_ubdIndex, hubd3] at hmem
      exact ((mem_foldl_deleteUbd val.unbondingIds s i).mp hmem).2 hi
    · intro _
      rw [getValidator_deleteValidatorQueue]
      exact hget3none
    · intro hne
      exact absurd hsh hne
    · exact selfKeyed_congr (deleteValidatorQueue_validators _ _) (hsk3 hsk2)
    · exact keysNodup_deleteValidatorQueue _ (keysNodupQ_congr hq3 hknd2)
  · rw [if_neg (show ¬({ val with status := BondStatus.unbonded } :
      Validator).delegatorShares = 0 from hsh)]
    refine ⟨_, rfl, ?_, ?_, ?_, ?_, ?_, ?_, ?_, ?_⟩
    · intro x hx
      rw [getValidator_deleteValidatorQueue,
        getValidator_set_ne _ _ (show x ≠ ({ val with status := BondStatus.unbonded } :
          Validator).operatorAddress from hx)]
      exact getValidator_foldl_deleteUbd _ _ _
    · intro k
      have hqS2 := qGet_congr hs2q
      rw [qGet_deleteValidatorQueue, hqS2, hqS2]
    · intro i hi
      rw [deleteValidatorQueue_ubdIndex] at hi
      exact ((mem_foldl_deleteUbd val.unbondingIds s i).mp hi).1
    · intro i hi hmem
      rw [deleteValidatorQueue_ubdIndex] at hmem
      exact ((mem_foldl_deleteUbd val.unbondingIds s i).mp hmem).2 hi
    · intro hz
      exact absurd hz hsh
    · intro _
      rw [getValidator_deleteValidatorQueue]
      exact getValidator_set_self _ _
    · exact selfKeyed_congr (deleteValidatorQueue_validators _ _) hsk2
    · exact keysNodup_deleteValidatorQueue _ hknd2

end Staking

namespace Staking

/-- Slice-level soundness: every queued address has a live `Unbonding`
record keyed to its slice. -/
def QSoundQ (s : StakingState) : Prop :=
  ∀ k, ∀ x ∈ qGet s k, ∃ v, GetValidator s x = some v
    ∧ v.status = BondStatus.unbonding
    ∧ v.unbondingTime = k.1 ∧ v.unbondingHeight = k.2
    ∧ (v.delegatorShares = 0 → v.tokens ≤ 0)

/-- Slice-level duplicate freedom. -/
def QNodup (s : StakingState) : Prop := ∀ k, (qGet s k).Nodup

/-- Slice-level disjointness: an address sits in at most one slice. -/
def QDisj (s : StakingState) : Prop :=
  ∀ k k', k ≠ k' → ∀ x ∈ qGet s k, x ∉ qGet s k'

lemma qsoundQ_of_wf {s : StakingState} (hqs : QueueSound s) : QSoundQ s := by
  intro k x hx
  exact hqs (k, qGet s k) (entry_of_mem_qGet hx) x hx

lemma qnodup_of_wf {s : StakingState} (haok : AddrsOK s) : QNodup s := by
  intro k
  by_cases hq : qGet s k = []
  · rw [hq]; exact List.nodup_nil
  · obtain ⟨x, hx⟩ := List.exists_mem_of_ne_nil _ hq
    exact haok.1 (k, qGet s k) (entry_of_mem_qGet hx)

lemma qdisj_of_wf {s : StakingState} (haok : AddrsOK s) : QDisj s := by
  intro k k' hne x hx hx'
  exact haok.2 (k, qGet s k) (entry_of_mem_qGet hx) (k', qGet s k')
    (entry_of_mem_qGet hx') (by simpa using hne) x hx hx'

/-- The inner loop of `UnbondAllMatureValidators` over one matured
entry's address list: processed addresses are matured or skipped exactly
as `processQueuedAddr_spec` describes, other slices and records are
untouched, and afterwards every address still in the slice is
skippable. -/
lemma processAddrs_go (pr : Int) (k0 : Int × Int) :
    ∀ (pending : List Nat) (w w' : StakingState),
      List.foldlM (processQueuedAddr pr) w pending = some w' →
      SelfKeyed w → KeysNodupQ w → QSoundQ w → QNodup w → QDisj w →
      pending.Nodup →
      (∀ b ∈ pending, b ∈ qGet w k0) →
      (∀ x ∈ qGet w k0, skippable w x ∨ x ∈ pending) →
      SelfKeyed w' ∧ KeysNodupQ w' ∧ QSoundQ w' ∧ QNodup w' ∧ QDisj w'
      ∧ (∀ k, k ≠ k0 → qGet w' k = qGet w k)
      ∧ (∀ x ∈ qGet w' k0, skippable w' x)
      ∧ (∀ x, x ∉ pending → GetValidator w' x = GetValidator w x)
      ∧ (∀ i, i ∈ w'.ubdIndex → i ∈ w.ubdIndex)
      ∧ (∀ k x, x ∈ qGet w' k → x ∈ qGet w k)
      ∧ (∀ x, skippable w x → x ∈ qGet w k0 → x ∈ qGet w' k0)
      ∧ (∀ b ∈ pending, ∀ valb, GetValidator w b = some valb →
          (valb.unbondingOnHoldRefCount ≠ 0 →
            GetValidator w' b = some valb ∧ b ∈ qGet w' k0)
          ∧ (valb.unbondingOnHoldRefCount = 0 →
            (∀ k, b ∉ qGet w' k)
            ∧ (∀ i ∈ valb.unbondingIds, i ∉ w'.ubdIndex)
            ∧ (valb.delegatorShares = 0 → GetValidator w' b = none)
            ∧ (valb.delegatorShares ≠ 0 →
                GetValidator w' b = some { valb with status := BondStatus.unbonded }))) := by
  intro pending
  induction pending with
  | nil =>
    intro w w' h hsk hknd hqs hqn hqd hpnd hin hcov
    rw [List.foldlM_nil] at h
    injection h with h'
    subst h'
    refine ⟨hsk, hknd, hqs, hqn, hqd, fun _ _ => rfl, ?_, fun _ _ => rfl,
      fun _ hi => hi, fun _ _ hx => hx, fun _ _ hx => hx, fun b hb => absurd hb (by simp)⟩
    intro x hx
    rcases hcov x hx with hsp | hmem
    · exact hsp
    · cases hmem
  | cons b pending' ih =>
    intro w w' h hsk hknd hqs hqn hqd hpnd hin hcov
    rw [List.foldlM_cons] at h
    have hbq : b ∈ qGet w k0 := hin b (List.mem_cons_self b pending')
    obtain ⟨valb, hgetb, hstb, htimeb, hheightb, htob⟩ := hqs k0 b hbq
    have hkey : (valb.unbondingTime, valb.unbondingHeight) = k0 := by
      rw [htimeb, hheightb]
    have hpnd' : pending'.Nodup := hpnd.of_cons
    have hbnp : b ∉ pending' := by
      intro hc
      exact (List.nodup_cons.mp hpnd).1 hc
    by_cases hrcb : valb.unbondingOnHoldRefCount = 0
    · -- maturable: the body mutates the state as the spec describes
      obtain ⟨s1, hps, hA, hB, hC, hD, hE, hF, hG, hH⟩ :=
        processQueuedAddr_spec pr w b valb hsk hknd hgetb hstb hrcb htob
      rw [hps] at h
      simp only [Option.bind_eq_bind, Option.some_bind] at h
      have hB' : ∀ k, qGet s1 k =
          if k = k0 then (qGet w k0).filter (fun x => decide (x ≠ b)) else qGet w k := by
        intro k
        rw [hB k, hkey]
      have hqs1 : QSoundQ s1 := by
        intro k x hx
        rw [hB' k] at hx
        have hxw : x ∈ qGet w k ∧ x ≠ b := by
          by_cases hk : k = k0
          · rw [if_pos hk] at hx
            rw [List.mem_filter] at hx
            refine ⟨hk ▸ hx.1, by simpa using hx.2⟩
          · rw [if_neg hk] at hx
            refine ⟨hx, ?_⟩
            intro hc
            subst hc
            exact hqd k k0 hk x hx hbq
        obtain ⟨v, hv, h1, h2, h3, h4⟩ := hqs k x hxw.1
        exact ⟨v, (hA x hxw.2).trans hv, h1, h2, h3, h4⟩
      have hqn1 : QNodup s1 := by
        intro k
        rw [hB' k]
        by_cases hk : k = k0
        · rw [if_pos hk]
          exact (hqn k0).filter _
        · rw [if_neg hk]
          exact hqn k
      have hqd1 : QDisj s1 := by
        intro k k' hne x hx hx'
        rw [hB' k] at hx
        rw [hB' k'] at hx'
        have hxk : x ∈ qGet w k := by
          by_cases hk : k = k0
          · rw [if_pos hk] at hx
            exact hk ▸ (List.mem_filter.mp hx).1
          · rwa [if_neg hk] at hx
        have hxk' : x ∈ qGet w k' := by
          by_cases hk : k' = k0
          · rw [if_pos hk] at hx'
            exact hk ▸ (List.mem_filter.mp hx').1
          · rwa [if_neg hk] at hx'
        exact hqd k k' hne x hxk hxk'
      have hin1 : ∀ b' ∈ pending', b' ∈ qGet s1 k0 := by
        intro b' hb'
        rw [hB' k0, if_pos rfl, List.mem_filter]
        refine ⟨hin b' (List.mem_cons_of_mem b hb'), ?_⟩
        simp only [decide_eq_true_eq]
        intro hc
        subst hc
        exact hbnp hb'
      have hcov1 : ∀ x ∈ qGet s1 k0, skippable s1 x ∨ x ∈ pending' := by
        intro x hx
        rw [hB' k0, if_pos rfl, List.mem_filter] at hx
        obtain ⟨hxw, hxb⟩ := hx
        simp only [decide_eq_true_eq] at hxb
        rcases hcov x hxw with ⟨v, hv, h1, h2⟩ | hmem
        · exact Or.inl ⟨v, (hA x hxb).trans hv, h1, h2⟩
        · rcases List.mem_cons.mp hmem with hc | hc
          · exact absurd hc hxb
          · exact Or.inr hc
      obtain ⟨ihsk, ihknd, ihqs, ihqn, ihqd, ih6, ih7, ih8, ih9, ih10, ih11, ih12⟩ :=
        ih s1 w' h hG hH hqs1 hqn1 hqd1 hpnd' hin1 hcov1
      refine ⟨ihsk, ihknd, ihqs, ihqn, ihqd, ?_, ih7, ?_, ?_, ?_, ?_, ?_⟩
      · intro k hk
        rw [ih6 k hk, hB' k, if_neg hk]
      · intro x hx
        have hxb : x ≠ b := fun hc => hx (hc ▸ List.mem_cons_self b pending')
        have hxp : x ∉ pending' := fun hc => hx (List.mem_cons_of_mem b hc)
        rw [ih8 x hxp]
        exact hA x hxb
      · intro i hi
        exact hC i (ih9 i hi)
      · intro k x hx
        have hx1 := ih10 k x hx
        rw [hB' k] at hx1
        by_cases hk : k = k0
        · rw [if_pos hk] at hx1
          exact hk ▸ (List.mem_filter.mp hx1).1
        · rwa [if_neg hk] at hx1
      · intro x hxs hxq
        have hxb : x ≠ b := by
          intro hc
          subst hc
          obtain ⟨v, hv, _, hvrc⟩ := hxs
          rw [hgetb] at hv
          injection hv with hv'
          rw [← hv'] at hvrc
          exact hvrc hrcb
        have hx1 : x ∈ qGet s1 k0 := by
          rw [hB' k0, if_pos rfl, List.mem_filter]
          exact ⟨hxq, by simpa using hxb⟩
        have hxs1 : skippable s1 x := by
          obtain ⟨v, hv, h1, h2⟩ := hxs
          exact ⟨v, (hA x hxb).trans hv, h1, h2⟩
        exact ih11 x hxs1 hx1
      · intro b' hb' valb' hgetb'
        rcases List.mem_cons.mp hb' with hcb | hcb
        · subst hcb
          have hvv : valb' = valb := by
            rw [hgetb] at hgetb'
            injection hgetb' with h'
            exact h'.symm
          subst hvv
          constructor
          · intro hrc'
            exact absurd hrcb hrc'
          · intro _
            refine ⟨?_, ?_, ?_, ?_⟩
            · intro k hc
              have hx1 := ih10 k b' hc
              rw [hB' k] at hx1
              by_cases hk : k = k0
              · rw [if_pos hk] at hx1
                rw [List.mem_filter] at hx1
                simp at hx1
              · rw [if_neg hk] at hx1
                exact hqd k0 k (fun hc' => hk hc'.symm) b' hbq hx1
            · intro i hi hc
              exact hD i hi (ih9 i hc)
            · intro hz
              rw [ih8 b' hbnp]
              exact hE hz
            · intro hnz
              rw [ih8 b' hbnp]
              exact hF hnz
        · have hgs1 : GetValidator s1 b' = some valb' := by
            have hb'b : b' ≠ b := fun hc => hbnp (hc ▸ hcb)
            rw [hA b' hb'b]
            exact hgetb'
          exact ih12 b' hcb valb' hgs1
    · -- positive hold count: the body is the identity
      have hskip : processQueuedAddr pr w b = some w :=
        processQueuedAddr_skip hgetb hstb hrcb
      rw [hskip] at h
      simp only [Option.bind_eq_bind, Option.some_bind] at h
      have hcov' : ∀ x ∈ qGet w k0, skippable w x ∨ x ∈ pending' := by
        intro x hx
        rcases hcov x hx with hsp | hmem
        · exact Or.inl hsp
        · rcases List.mem_cons.mp hmem with hc | hc
          · subst hc
            exact Or.inl ⟨valb, hgetb, hstb, hrcb⟩
          · exact Or.inr hc
      obtain ⟨ihsk, ihknd, ihqs, ihqn, ihqd, ih6, ih7, ih8, ih9, ih10, ih11, ih12⟩ :=
        ih w w' h hsk hknd hqs hqn hqd hpnd'
          (fun b' hb' => hin b' (List.mem_cons_of_mem b hb')) hcov'
      refine ⟨ihsk, ihknd, ihqs, ihqn, ihqd, ih6, ih7, ?_, ih9, ih10, ih11, ?_⟩
      · intro x hx
        exact ih8 x (fun hc => hx (List.mem_cons_of_mem b hc))
      · intro b' hb' valb' hgetb'
        rcases List.mem_cons.mp hb' with hcb | hcb
        · subst hcb
          have hvv : valb' = valb := by
            rw [hgetb] at hgetb'
            injection hgetb' with h'
            exact h'.symm
          subst hvv
          constructor
          · intro _
            refine ⟨?_, ?_⟩
            · rw [ih8 b' hbnp]
              exact hgetb
            · exact ih11 b' ⟨valb', hgetb, hstb, hrcb⟩ hbq
          · intro hrc'
            exact absurd hrc' hrcb
        · exact ih12 b' hcb valb' hgetb'

end Staking

namespace Staking

/-- The outer loop of `UnbondAllMatureValidators` over the matured-entry
snapshot: after the pass, every still-queued address of a matured key is
skippable; entries whose key fails the explicit maturity check, and
addresses outside the snapshot, are untouched; processed addresses end as
`processQueuedAddr_spec` describes. -/
lemma processEntries_go (pr t h : Int) :
    ∀ (R : List ((Int × Int) × List Nat)) (u u' : StakingState),
      List.foldlM (processQueueEntry pr t h) u R = some u' →
      SelfKeyed u → KeysNodupQ u → QSoundQ u → QNodup u → QDisj u →
      (R.map Prod.fst).Nodup →
      (∀ e ∈ R, qGet u e.1 = e.2) →
      (∀ k : Int × Int, k.2 ≤ h ∧ k.1 ≤ t →
        (∃ e ∈ R, e.1 = k) ∨ (∀ a ∈ qGet u k, skippable u a)) →
      SelfKeyed u' ∧ KeysNodupQ u' ∧ QSoundQ u' ∧ QNodup u' ∧ QDisj u'
      ∧ (∀ k : Int × Int, k.2 ≤ h ∧ k.1 ≤ t → ∀ a ∈ qGet u' k, skippable u' a)
      ∧ (∀ x, (∀ e ∈ R, x ∉ e.2) → GetValidator u' x = GetValidator u x
          ∧ (∀ k, x ∈ qGet u' k ↔ x ∈ qGet u k))
      ∧ (∀ i, i ∈ u'.ubdIndex → i ∈ u.ubdIndex)
      ∧ (∀ k x, x ∈ qGet u' k → x ∈ qGet u k)
      ∧ (∀ e ∈ R, ¬(e.1.2 ≤ h ∧ e.1.1 ≤ t) → ∀ x ∈ e.2,
          GetValidator u' x = GetValidator u x ∧ (∀ k, x ∈ qGet u' k ↔ x ∈ qGet u k))
      ∧ (∀ e ∈ R, e.1.2 ≤ h ∧ e.1.1 ≤ t → ∀ x ∈ e.2, ∀ valx,
          GetValidator u x = some valx →
          (valx.unbondingOnHoldRefCount ≠ 0 →
            GetValidator u' x = some valx ∧ x ∈ qGet u' e.1)
          ∧ (valx.unbondingOnHoldRefCount = 0 →
            (∀ k, x ∉ qGet u' k)
            ∧ (∀ i ∈ valx.unbondingIds, i ∉ u'.ubdIndex)
            ∧ (valx.delegatorShares = 0 → GetValidator u' x = none)
            ∧ (valx.delegatorShares ≠ 0 →
                GetValidator u' x = some { valx with status := BondStatus.unbonded }))) := by
  intro R
  induction R with
  | nil =>
    intro u u' hfold hsk hknd hqs hqn hqd hRnd hsnap hcov
    rw [List.foldlM_nil] at hfold
    injection hfold with h'
    subst h'
    refine ⟨hsk, hknd, hqs, hqn, hqd, ?_, fun x _ => ⟨rfl, fun k => Iff.rfl⟩,
      fun _ hi => hi, fun _ _ hx => hx, fun e he => absurd he (by simp),
      fun e he => absurd he (by simp)⟩
    intro k hk a ha
    rcases hcov k hk with ⟨e, he, _⟩ | hskip
    · cases he
    · exact hskip a ha
  | cons e0 R' ih =>
    intro u u' hfold hsk hknd hqs hqn hqd hRnd hsnap hcov
    rw [List.foldlM_cons] at hfold
    have he0snap : qGet u e0.1 = e0.2 := hsnap e0 (List.mem_cons_self e0 R')
    have hRnd' : (R'.map Prod.fst).Nodup := by
      rw [List.map_cons, List.nodup_cons] at hRnd
      exact hRnd.2
    have he0keys : ∀ e' ∈ R', e'.1 ≠ e0.1 := by
      intro e' he' hc
      rw [List.map_cons, List.nodup_cons] at hRnd
      exact hRnd.1 (hc ▸ List.mem_map.mpr ⟨e', he', rfl⟩)
    by_cases hchk : e0.1.2 ≤ h ∧ e0.1.1 ≤ t
    · -- the entry is matured: run the inner loop over its address list
      have hstep : processQueueEntry pr t h u e0
          = List.foldlM (processQueuedAddr pr) u e0.2 := by
        unfold processQueueEntry
        rw [if_pos hchk]
      rw [hstep] at hfold
      cases hmid : List.foldlM (processQueuedAddr pr) u e0.2 with
      | none => rw [hmid] at hfold; cases hfold
      | some u1 =>
        rw [hmid] at hfold
        simp only [Option.bind_eq_bind, Option.some_bind] at hfold
        obtain ⟨isk, iknd, iqs, iqn, iqd, i6, i7, i8, i9, i10, i11, i12⟩ :=
          processAddrs_go pr e0.1 e0.2 u u1 hmid hsk hknd hqs hqn hqd
            (he0snap ▸ hqn e0.1) (fun b hb => he0snap ▸ hb)
            (fun x hx => Or.inr (he0snap ▸ hx))
        have hsnap1 : ∀ e' ∈ R', qGet u1 e'.1 = e'.2 := by
          intro e' he'
          rw [i6 e'.1 (he0keys e' he'), hsnap e' (List.mem_cons_of_mem e0 he')]
        have hcov1 : ∀ k : Int × Int, k.2 ≤ h ∧ k.1 ≤ t →
            (∃ e ∈ R', e.1 = k) ∨ (∀ a ∈ qGet u1 k, skippable u1 a) := by
          intro k hk
          by_cases hke0 : k = e0.1
          · subst hke0
            exact Or.inr (i7)
          · rcases hcov k hk with ⟨e', he', he'k⟩ | hskp
            · rcases List.mem_cons.mp he' with hc | hc
              · exact absurd (hc ▸ he'k).symm hke0
              · exact Or.inl ⟨e', hc, he'k⟩
            · refine Or.inr ?_
              intro a ha
              rw [i6 k (fun hc => hke0 hc)] at ha
              have hanot : a ∉ e0.2 := by
                rw [← he0snap]
                exact hqd k e0.1 (fun hc => hke0 hc) a ha
              obtain ⟨v, hv, h1, h2⟩ := hskp a ha
              exact ⟨v, (i8 a hanot).trans hv, h1, h2⟩
        obtain ⟨jsk, jknd, jqs, jqn, jqd, j6, j7, j8, j9, j10, j11⟩ :=
          ih u1 u' hfold isk iknd iqs iqn iqd hRnd' hsnap1 hcov1
        have hframe1 : ∀ x, x ∉ e0.2 →
            GetValidator u1 x = GetValidator u x ∧ (∀ k, x ∈ qGet u1 k ↔ x ∈ qGet u k) := by
          intro x hx
          refine ⟨i8 x hx, ?_⟩
          intro k
          constructor
          · exact fun hm => i10 k x hm
          · intro hm
            by_cases hke0 : k = e0.1
            · exact absurd (he0snap ▸ (hke0 ▸ hm)) hx
            · rw [i6 k hke0]
              exact hm
        refine ⟨jsk, jknd, jqs, jqn, jqd, j6, ?_, ?_, ?_, ?_, ?_⟩
        · intro x hx
          have hxe0 : x ∉ e0.2 := hx e0 (List.mem_cons_self e0 R')
          have hxR' : ∀ e ∈ R', x ∉ e.2 := fun e he => hx e (List.mem_cons_of_mem e0 he)
          obtain ⟨jg, jm⟩ := j7 x hxR'
          obtain ⟨ig, im⟩ := hframe1 x hxe0
          exact ⟨jg.trans ig, fun k => (jm k).trans (im k)⟩
        · intro i hi
          exact i9 i (j8 i hi)
        · intro k x hx
          exact i10 k x (j9 k x hx)
        · intro e he hechk x hxe
          rcases List.mem_cons.mp he with hc | hc
          · subst hc
            exact absurd hchk hechk
          · have hxe0 : x ∉ e0.2 := by
              rw [← he0snap]
              rw [← hsnap e (List.mem_cons_of_mem e0 hc)] at hxe
              exact hqd e.1 e0.1 (he0keys e hc) x hxe
            obtain ⟨jg, jm⟩ := j10 e hc hechk x hxe
            obtain ⟨ig, im⟩ := hframe1 x hxe0
            exact ⟨jg.trans ig, fun k => (jm k).trans (im k)⟩
        · intro e he hechk x hxe valx hvalx
          rcases List.mem_cons.mp he with hc | hc
          · subst hc
            have hfate := i12 x hxe valx hvalx
            have hxR' : ∀ e' ∈ R', x ∉ e'.2 := by
              intro e' he'
              rw [← hsnap1 e' he']
              intro hcm
              have hx1 : x ∈ qGet u e'.1 := by
                rw [← i6 e'.1 (he0keys e' he')]
                exact hcm
              rw [← he0snap] at hxe
              exact hqd e.1 e'.1 (fun hcc => (he0keys e' he') hcc.symm) x hxe hx1
            obtain ⟨jg, jm⟩ := j7 x hxR'
            constructor
            · intro hrc
              obtain ⟨hg1, hm1⟩ := hfate.1 hrc
              exact ⟨jg.trans hg1, (jm e.1).mpr hm1⟩
            · intro hrc
              obtain ⟨hq1, hub1, hz1, hnz1⟩ := hfate.2 hrc
              refine ⟨?_, ?_, ?_, ?_⟩
              · intro k hcm
                exact hq1 k (j9 k x hcm)
              · intro i hi hcm
                exact hub1 i hi (j8 i hcm)
              · intro hz
                exact jg.trans (hz1 hz)
              · intro hnz
                exact jg.trans (hnz1 hnz)
          · have hxe0 : x ∉ e0.2 := by
              rw [← he0snap]
              rw [← hsnap e (List.mem_cons_of_mem e0 hc)] at hxe
              exact hqd e.1 e0.1 (he0keys e hc) x hxe
            obtain ⟨ig, im⟩ := hframe1 x hxe0
            have hvalx1 : GetValidator u1 x = some valx := ig.trans hvalx
            have hfate := j11 e hc hechk x hxe valx hvalx1
            constructor
            · intro hrc
              obtain ⟨hg1, hm1⟩ := hfate.1 hrc
              exact ⟨hg1, hm1⟩
            · intro hrc
              exact hfate.2 hrc
    · -- the entry fails the explicit maturity check: no-op for it
      have hstep : processQueueEntry pr t h u e0 = some u := by
        unfold processQueueEntry
        rw [if_neg hchk]
      rw [hstep] at hfold
      simp only [Option.bind_eq_bind, Option.some_bind] at hfold
      have hcov1 : ∀ k : Int × Int, k.2 ≤ h ∧ k.1 ≤ t →
          (∃ e ∈ R', e.1 = k) ∨ (∀ a ∈ qGet u k, skippable u a) := by
        intro k hk
        rcases hcov k hk with ⟨e', he', he'k⟩ | hskp
        · rcases List.mem_cons.mp he' with hc | hc
          · subst hc
            exact absurd (he'k ▸ hk) hchk
          · exact Or.inl ⟨e', hc, he'k⟩
        · exact Or.inr hskp
      obtain ⟨jsk, jknd, jqs, jqn, jqd, j6, j7, j8, j9, j10, j11⟩ :=
        ih u u' hfold hsk hknd hqs hqn hqd hRnd'
          (fun e' he' => hsnap e' (List.mem_cons_of_mem e0 he')) hcov1
      refine ⟨jsk, jknd, jqs, jqn, jqd, j6, ?_, j8, j9, ?_, ?_⟩
      · intro x hx
        exact j7 x (fun e he => hx e (List.mem_cons_of_mem e0 he))
      · intro e he hechk x hxe
        rcases List.mem_cons.mp he with hc | hc
        · subst hc
          refine j7 x ?_
          intro e' he'
          rw [← hsnap e' (List.mem_cons_of_mem e he')]
          rw [← hsnap e (List.mem_cons_self e R')] at hxe
          exact hqd e.1 e'.1 (fun hcc => (he0keys e' he') hcc.symm) x hxe
        · exact j10 e hc hechk x hxe
      · intro e he hechk x hxe valx hvalx
        rcases List.mem_cons.mp he with hc | hc
        · subst hc
          exact absurd hechk hchk
        · exact j11 e hc hechk x hxe valx hvalx

end Staking

namespace Staking

/-- A monadic fold whose every step fixes the state returns the state. -/
lemma foldlM_id {α σ : Type} {f : σ → α → Option σ} {s : σ} :
    ∀ {l : List α}, (∀ a ∈ l, f s a = some s) → List.foldlM f s l = some s := by
  intro l
  induction l with
  | nil => intro _; rw [List.foldlM_nil]; rfl
  | cons a l ih =>
    intro hl
    rw [List.foldlM_cons, hl a (List.mem_cons_self a l)]
    simp only [Option.bind_eq_bind, Option.some_bind]
    exact ih (fun b hb => hl b (List.mem_cons_of_mem a hb))

/-- Membership in the iterator snapshot: exactly the stored entries whose
key is within the inclusive end bound. -/
lemma mem_maturedEntries {q : List ((Int × Int) × List Nat)} {t h : Int}
    {e : (Int × Int) × List Nat} :
    e ∈ maturedEntries q t h ↔ e ∈ q ∧ qkeyLe e.1 (t, h) := by
  unfold maturedEntries
  rw [(List.perm_insertionSort _ _).mem_iff, List.mem_filter]
  simp only [decide_eq_true_eq]

/-- The snapshot inherits key uniqueness from the stored queue. -/
lemma maturedEntries_keys_nodup {s : StakingState} (hknd : KeysNodupQ s)
    (t h : Int) : ((maturedEntries s.queue t h).map Prod.fst).Nodup := by
  unfold maturedEntries
  refine (((List.perm_insertionSort _ _).map Prod.fst).nodup_iff).mpr ?_
  exact List.Nodup.sublist ((List.filter_sublist _).map Prod.fst) hknd

end Staking

namespace Staking

/-- C8.  On a well-formed state, running `UnbondAllMatureValidators` a
second time at the same block time and height, with no intervening
mutation, returns the first run's result unchanged: the first pass leaves
every matured key's slice holding only on-hold addresses, which the body
skips without mutation, so every step of the second pass is the
identity. -/
theorem C8_second_call_noop (pr t h : Int) (s s' : StakingState)
    (hwf : StateWF s)
    (hrun : UnbondAllMatureValidators pr t h s = some s') :
    UnbondAllMatureValidators pr t h s' = some s' := by
  obtain ⟨hsk, hknd, hqs, haok⟩ := hwf
  unfold UnbondAllMatureValidators at hrun
  have hsnap : ∀ e ∈ maturedEntries s.queue t h, qGet s e.1 = e.2 := by
    intro e he
    obtain ⟨hq, -⟩ := mem_maturedEntries.mp he
    cases e with
    | mk k as => exact qGet_of_mem hknd hq
  have hcov : ∀ k : Int × Int, k.2 ≤ h ∧ k.1 ≤ t →
      (∃ e ∈ maturedEntries s.queue t h, e.1 = k)
      ∨ (∀ a ∈ qGet s k, skippable s a) := by
    intro k hk
    by_cases hq : qGet s k = []
    · refine Or.inr ?_
      intro a ha
      rw [hq] at ha
      cases ha
    · refine Or.inl ?_
      obtain ⟨x, hx⟩ := List.exists_mem_of_ne_nil _ hq
      refine ⟨(k, qGet s k), ?_, rfl⟩
      rw [mem_maturedEntries]
      refine ⟨entry_of_mem_qGet hx, ?_⟩
      rcases lt_or_eq_of_le hk.2 with hlt | heq
      · exact Or.inl hlt
      · exact Or.inr ⟨heq, hk.1⟩
  obtain ⟨-, jknd, -, -, -, j6, -, -, -, -, -⟩ :=
    processEntries_go pr t h (maturedEntries s.queue t h) s s' hrun hsk hknd
      (qsoundQ_of_wf hqs) (qnodup_of_wf haok) (qdisj_of_wf haok)
      (maturedEntries_keys_nodup hknd t h) hsnap hcov
  unfold UnbondAllMatureValidators
  refine foldlM_id ?_
  intro e he
  unfold processQueueEntry
  by_cases hchk : e.1.2 ≤ h ∧ e.1.1 ≤ t
  · rw [if_pos hchk]
    refine foldlM_id ?_
    intro a ha
    obtain ⟨heq', -⟩ := mem_maturedEntries.mp he
    have hq : qGet s' e.1 = e.2 := by
      cases e with
      | mk k as => exact qGet_of_mem jknd heq'
    obtain ⟨v, hv, hst, hrc⟩ := j6 e.1 hchk a (hq ▸ ha)
    exact processQueuedAddr_skip hv hst hrc
  · rw [if_neg hchk]

end Staking

namespace Staking

/-- C8 witness data: a matured validator with no hold (7) and a matured
validator on hold (9) share the queue slice at key (50, 2). -/
def c8V7 : Validator := ⟨7, 70, false, BondStatus.unbonding, 10, 5, 2, 50, 0, [3]⟩

def c8V9 : Validator := ⟨9, 90, false, BondStatus.unbonding, 11, 6, 2, 50, 1, [4]⟩

def c8S0 : StakingState :=
  ⟨[(7, c8V7), (9, c8V9)], [(70, 7), (90, 9)], [], [((50, 2), [7, 9])], [3, 4]⟩

def c8S1 : StakingState := (UnbondAllMatureValidators 1000000 50 2 c8S0).getD c8S0

lemma c8wf : StateWF c8S0 := by
  refine ⟨by unfold SelfKeyed; decide, by unfold KeysNodupQ; decide, ?_,
    by unfold AddrsOK; decide⟩
  intro e he a ha
  have he' : e = ((50, 2), [7, 9]) := by simpa [c8S0] using he
  subst he'
  have ha' : a = 7 ∨ a = 9 := by simpa using ha
  rcases ha' with ha' | ha'
  · subst ha'
    exact ⟨c8V7, by decide⟩
  · subst ha'
    exact ⟨c8V9, by decide⟩

theorem C8_second_call_noop_witness :
    StateWF c8S0
    ∧ UnbondAllMatureValidators 1000000 50 2 c8S0 = some c8S1
    ∧ UnbondAllMatureValidators 1000000 50 2 c8S1 = some c8S1 :=
  ⟨c8wf, by decide, C8_second_call_noop 1000000 50 2 c8S0 c8S1 c8wf (by decide)⟩

end Staking

namespace Staking

/-- C7 (amended).  For a successful `UnbondAllMatureValidators` run on a
well-formed state and any queued address: when the queue key's height and
time are both within the block bounds and the live record has no hold,
the address leaves the queue, its unbonding-id index entries are deleted,
and the record is removed entirely when its delegator shares are zero —
otherwise the persisted record is exactly the old one with status set to
`Unbonded`, its `UnbondingIds` field NOT cleared (the source clears the
field only on a local copy after the store write).  With a positive hold
count, or a key outside the block bounds, the record and its queue
membership are unchanged. -/
theorem C7_maturation_transitions (pr t h : Int) (s s' : StakingState)
    (hwf : StateWF s)
    (hrun : UnbondAllMatureValidators pr t h s = some s')
    (k : Int × Int) (x : Nat) (hx : x ∈ qGet s k)
    (v : Validator) (hv : GetValidator s x = some v) :
    (k.2 ≤ h ∧ k.1 ≤ t →
      (v.unbondingOnHoldRefCount = 0 →
        (∀ k', x ∉ qGet s' k')
        ∧ (∀ i ∈ v.unbondingIds, i ∉ s'.ubdIndex)
        ∧ (v.delegatorShares = 0 → GetValidator s' x = none)
        ∧ (v.delegatorShares ≠ 0 →
            GetValidator s' x = some { v with status := BondStatus.unbonded }))
      ∧ (v.unbondingOnHoldRefCount ≠ 0 →
          GetValidator s' x = some v ∧ x ∈ qGet s' k))
    ∧ (¬(k.2 ≤ h ∧ k.1 ≤ t) →
        GetValidator s' x = some v ∧ x ∈ qGet s' k) := by
  obtain ⟨hsk, hknd, hqs, haok⟩ := hwf
  have hqd : QDisj s := qdisj_of_wf haok
  unfold UnbondAllMatureValidators at hrun
  have hsnap : ∀ e ∈ maturedEntries s.queue t h, qGet s e.1 = e.2 := by
    intro e he
    obtain ⟨hq, -⟩ := mem_maturedEntries.mp he
    cases e with
    | mk k' as => exact qGet_of_mem hknd hq
  have hcov : ∀ k' : Int × Int, k'.2 ≤ h ∧ k'.1 ≤ t →
      (∃ e ∈ maturedEntries s.queue t h, e.1 = k')
      ∨ (∀ a ∈ qGet s k', skippable s a) := by
    intro k' hk
    by_cases hq : qGet s k' = []
    · refine Or.inr ?_
      intro a ha
      rw [hq] at ha
      cases ha
    · refine Or.inl ?_
      obtain ⟨y, hy⟩ := List.exists_mem_of_ne_nil _ hq
      refine ⟨(k', qGet s k'), ?_, rfl⟩
      rw [mem_maturedEntries]
      refine ⟨entry_of_mem_qGet hy, ?_⟩
      rcases lt_or_eq_of_le hk.2 with hlt | heq
      · exact Or.inl hlt
      · exact Or.inr ⟨heq, hk.1⟩
  obtain ⟨-, -, -, -, -, -, j7, -, -, j10, j11⟩ :=
    processEntries_go pr t h (maturedEntries s.queue t h) s s' hrun hsk hknd
      (qsoundQ_of_wf hqs) (qnodup_of_wf haok) hqd
      (maturedEntries_keys_nodup hknd t h) hsnap hcov
  by_cases hle : qkeyLe k (t, h)
  · have heR : (k, qGet s k) ∈ maturedEntries s.queue t h :=
      mem_maturedEntries.mpr ⟨entry_of_mem_qGet hx, hle⟩
    constructor
    · intro hchk
      have hfate := j11 (k, qGet s k) heR hchk x hx v hv
      exact ⟨hfate.2, hfate.1⟩
    · intro hchk
      obtain ⟨jg, jm⟩ := j10 (k, qGet s k) heR hchk x hx
      exact ⟨jg.trans hv, (jm k).mpr hx⟩
  · have hchk' : ¬(k.2 ≤ h ∧ k.1 ≤ t) := by
      intro hc
      refine hle ?_
      rcases lt_or_eq_of_le hc.2 with hlt | heq
      · exact Or.inl hlt
      · exact Or.inr ⟨heq, hc.1⟩
    refine ⟨fun hc => absurd hc hchk', ?_⟩
    intro _
    have hxR : ∀ e ∈ maturedEntries s.queue t h, x ∉ e.2 := by
      intro e he hxe
      obtain ⟨heq', hele⟩ := mem_maturedEntries.mp he
      have hes : qGet s e.1 = e.2 := hsnap e he
      by_cases hek : e.1 = k
      · exact hle (hek ▸ hele)
      · exact hqd k e.1 (fun hc => hek hc.symm) x hx (hes ▸ hxe)
    obtain ⟨jg, jm⟩ := j7 x hxR
    exact ⟨jg.trans hv, (jm k).mpr hx⟩

end Staking

namespace Staking

/-- C7 counterexample data: validator 7, `Unbonding`, shares 5, hold
count 0, unbonding id 3, queued at its completion key (50, 2). -/
def c7V : Validator := ⟨7, 70, false, BondStatus.unbonding, 10, 5, 2, 50, 0, [3]⟩

def c7S0 : StakingState :=
  ⟨[(7, c7V)], [(70, 7)], [], [((50, 2), [7])], [3]⟩

def c7Res : StakingState := (UnbondAllMatureValidators 1000000 50 2 c7S0).getD c7S0

/-- The record the run actually persists for validator 7. -/
def c7W : Validator := { c7V with status := BondStatus.unbonded }

lemma c7wf : StateWF c7S0 := by
  refine ⟨by unfold SelfKeyed; decide, by unfold KeysNodupQ; decide, ?_,
    by unfold AddrsOK; decide⟩
  intro e he a ha
  have he' : e = ((50, 2), [7]) := by simpa [c7S0] using he
  subst he'
  have ha' : a = 7 := by simpa using ha
  subst ha'
  exact ⟨c7V, by decide⟩

/-- C7.  Counterexample to "otherwise leaves the record Unbonded with
unbondingIds cleared": at block time 50 and height 2, matured validator 7
(hold count 0, shares 5 ≠ 0, unbonding id 3) is transitioned to
`Unbonded` and dequeued, but the persisted record still carries
`UnbondingIds = [3]` — the source clears the field only on a local copy
after `UnbondingToUnbonded` has already written the store. -/
theorem C7_maturation_counterexample :
    UnbondAllMatureValidators 1000000 50 2 c7S0 = some c7Res
    ∧ GetValidator c7S0 7 = some c7V
    ∧ 7 ∈ qGet c7S0 (50, 2)
    ∧ c7V.unbondingOnHoldRefCount = 0
    ∧ c7V.delegatorShares ≠ 0
    ∧ ((50, 2) : Int × Int).2 ≤ 2 ∧ ((50, 2) : Int × Int).1 ≤ 50
    ∧ GetValidator c7Res 7 = some c7W
    ∧ c7W.status = BondStatus.unbonded
    ∧ c7W.unbondingIds = [3]
    ∧ c7W.unbondingIds ≠ [] := by
  decide

theorem C7_maturation_transitions_witness :
    GetValidator c7Res 7 = some c7W
    ∧ 7 ∉ qGet c7Res (50, 2)
    ∧ 3 ∉ c7Res.ubdIndex := by
  have h := C7_maturation_transitions 1000000 50 2 c7S0 c7Res c7wf (by decide)
    (50, 2) 7 (by decide) c7V (by decide)
  obtain ⟨hq, hub, -, hnz⟩ := (h.1 (by decide)).1 (by decide)
  exact ⟨hnz (by decide), hq (50, 2), hub 3 (by decide)⟩

end Staking
